import Mathlib

/-!
# Verification of the ashid identifier codec (TypeScript implementation)

Shallow embedding of src/typescript/src/encoder.ts (class EncoderBase32Crockford)
and src/typescript/src/ashid.ts (class Ashid).

Modelling conventions:
* JavaScript strings are modelled as `List Char`; every character the code
  treats specially is ASCII, so this is exact on the relevant domain.
* JavaScript numbers and BigInt values are modelled as `Int` at the public
  entry points (where negativity is checked) and as `Nat` internally after
  the checks.  All numeric values that reach the encoders in the verified
  scenarios are below 2^53 or are BigInt, so exact integer arithmetic is a
  faithful model.
* `String.prototype.toLowerCase` / `toUpperCase` are modelled on the ASCII
  range, which is exact for every character the decoder recognizes.
* Thrown exceptions are modelled as `Except.error` carrying the message.
-/

/-- ASCII lower-casing, as applied by `toLowerCase()` on the characters the
codec recognizes. -/
def toLowerChar (c : Char) : Char :=
  if 65 ≤ c.toNat ∧ c.toNat ≤ 90 then Char.ofNat (c.toNat + 32) else c

/-- ASCII upper-casing, as applied by `toUpperCase()` on the characters the
codec recognizes. -/
def toUpperChar (c : Char) : Char :=
  if 97 ≤ c.toNat ∧ c.toNat ≤ 122 then Char.ofNat (c.toNat - 32) else c

/-- The test `/^[a-zA-Z]$/.test(ch)` from `Ashid.parse`. -/
def isLetterChar (c : Char) : Bool :=
  (97 ≤ c.toNat && c.toNat ≤ 122) || (65 ≤ c.toNat && c.toNat ≤ 90)

/-- The character class `[a-zA-Z0-9]` from `Ashid.normalizePrefix` and the
tag-shape regex in `Ashid.isValid`. -/
def isAlnumChar (c : Char) : Bool :=
  isLetterChar c || (48 ≤ c.toNat && c.toNat ≤ 57)

/-- `'0' <= c <= '9'`. -/
def isDigitChar (c : Char) : Bool :=
  48 ≤ c.toNat && c.toNat ≤ 57

namespace Encoder

/-- `EncoderBase32Crockford.alphabet`. -/
def alphabet : List Char := "0123456789abcdefghjkmnpqrstvwxyz".toList

/-- `EncoderBase32Crockford.encodeRecursive` (the BigInt variant
`encodeBigIntRecursive` is the same recursion on non-negative integers). -/
def encodeRecursive (n : Nat) : List Char :=
  if n = 0 then ['0']
  else
    let remainder := n % 32
    let quotient := n / 32
    if quotient = 0 then [alphabet.getD remainder ' ']
    else encodeRecursive quotient ++ [alphabet.getD remainder ' ']
termination_by n
decreasing_by
  exact Nat.div_lt_self (Nat.pos_of_ne_zero (by assumption)) (by norm_num)

/-- `String.prototype.padStart(w, c)`. -/
def padStart (w : Nat) (c : Char) (s : List Char) : List Char :=
  List.replicate (w - s.length) c ++ s

/-- `EncoderBase32Crockford.encode` restricted to its non-negative exact
domain (the negative / non-finite guard is never reached from `Ashid`,
which validates first). -/
def encode (n : Nat) (padded : Bool) : List Char :=
  let encoded := encodeRecursive n
  if padded then padStart 13 '0' encoded else encoded

/-- `EncoderBase32Crockford.encodeBigInt` on its non-negative domain. -/
def encodeBigInt (n : Nat) (padded : Bool) : List Char :=
  let encoded := encodeRecursive n
  if padded then padStart 13 '0' encoded else encoded

/-- `EncoderBase32Crockford.decodeChar`: value of one (already either-case)
character, `-1` for an unrecognized character. -/
def decodeChar (c : Char) : Int :=
  match c with
  | '0' | 'o' | 'O' => 0
  | '1' | 'i' | 'I' | 'l' | 'L' => 1
  | '2' => 2
  | '3' => 3
  | '4' => 4
  | '5' => 5
  | '6' => 6
  | '7' => 7
  | '8' => 8
  | '9' => 9
  | 'a' | 'A' => 10
  | 'b' | 'B' => 11
  | 'c' | 'C' => 12
  | 'd' | 'D' => 13
  | 'e' | 'E' => 14
  | 'f' | 'F' => 15
  | 'g' | 'G' => 16
  | 'h' | 'H' => 17
  | 'j' | 'J' => 18
  | 'k' | 'K' => 19
  | 'm' | 'M' => 20
  | 'n' | 'N' => 21
  | 'p' | 'P' => 22
  | 'q' | 'Q' => 23
  | 'r' | 'R' => 24
  | 's' | 'S' => 25
  | 't' | 'T' => 26
  | 'u' | 'U' | 'v' | 'V' => 27
  | 'w' | 'W' => 28
  | 'x' | 'X' => 29
  | 'y' | 'Y' => 30
  | 'z' | 'Z' => 31
  | _ => -1

/-- The accumulating loop shared by `decode` and `decodeBigInt`.  The source
wraps the offending character in single quotes inside the message; the model
appends the bare character (no property ever depends on that message's
text). -/
def decodeLoop : List Char → Nat → Except String Nat
  | [], acc => .ok acc
  | c :: rest, acc =>
    let value := decodeChar c
    if value = -1 then
      .error ("Invalid character in Base32 string: " ++ String.singleton c)
    else decodeLoop rest (acc * 32 + value.toNat)

/-- `EncoderBase32Crockford.decode`.  The JS version accumulates into a
double; every field it is applied to in the verified properties stays exact
(or only its success or failure matters), so the `Nat` result is faithful. -/
def decode (s : List Char) : Except String Nat :=
  if s.length = 0 then .error "Input string cannot be empty"
  else decodeLoop (s.map toLowerChar) 0

/-- `EncoderBase32Crockford.decodeBigInt` (exact BigInt arithmetic). -/
def decodeBigInt (s : List Char) : Except String Nat :=
  if s.length = 0 then .error "Input string cannot be empty"
  else decodeLoop (s.map toLowerChar) 0

/-- `EncoderBase32Crockford.isValid`. -/
def isValid (s : List Char) : Bool :=
  if s.length = 0 then false
  else
    match decode s with
    | .ok _ => true
    | .error _ => false

end Encoder

namespace Ashid

/-- `MAX_TIMESTAMP = 35184372088831 = 32^9 - 1`. -/
def MAX_TIMESTAMP : Int := 35184372088831

/-- `RANDOM_ENCODED_LENGTH`. -/
def RANDOM_ENCODED_LENGTH : Nat := 13

/-- `TIMESTAMP_ENCODED_LENGTH`. -/
def TIMESTAMP_ENCODED_LENGTH : Nat := 9

/-- `STANDARD_BASE_LENGTH`. -/
def STANDARD_BASE_LENGTH : Nat := 22

/-- `ASHID4_BASE_LENGTH`. -/
def ASHID4_BASE_LENGTH : Nat := 26

/-- `Ashid.normalizePrefix`: strip non-alphanumerics, lower-case, append the
underscore delimiter; empty input (or empty after cleaning) means no tag. -/
def normalizeTag : Option (List Char) → Option (List Char)
  | none => none
  | some p =>
    if p.length = 0 then none
    else
      let cleaned := (p.filter isAlnumChar).map toLowerChar
      if cleaned.length = 0 then none else some (cleaned ++ ['_'])

/-- `Ashid.create` with explicit timestamp and random arguments (the
defaulted wall-clock / secure-random draws are external inputs; all claims
fix them explicitly).  Both arguments are integers, as in the claims. -/
def create (tag : Option (List Char)) (time : Int) (randomLong : Int) :
    Except String (List Char) :=
  let normalizedTag := normalizeTag tag
  if time < 0 then .error "Ashid timestamp must be non-negative"
  else if MAX_TIMESTAMP < time then
    .error "Ashid timestamp must not exceed 35184372088831 (Dec 12, 3084)"
  else if randomLong < 0 then .error "Ashid random value must be non-negative"
  else
    let flooredTime := time.toNat
    let randomBigInt := randomLong.toNat
    let baseId :=
      match normalizedTag with
      | some _ =>
        let randomEncoded :=
          if 0 < flooredTime then Encoder.encodeBigInt randomBigInt true
          else Encoder.encodeBigInt randomBigInt false
        if 0 < flooredTime then
          Encoder.encode flooredTime false ++ randomEncoded
        else randomEncoded
      | none =>
        Encoder.padStart TIMESTAMP_ENCODED_LENGTH '0'
            (Encoder.encode flooredTime false) ++
          Encoder.encodeBigInt randomBigInt true
    .ok (normalizedTag.getD [] ++ baseId)

/-- The delimiter-scanning loop of `Ashid.parse`: returns the value of
`prefixLength` used for the substring split, and `hasDelimiter`.  Falling
off the end of the string keeps the accumulated count (and no delimiter),
exactly as the source loop does. -/
def scanTag : List Char → Nat → Nat × Bool
  | [], acc => (acc, false)
  | c :: rest, acc =>
    if isLetterChar c then scanTag rest (acc + 1)
    else if (c = '_' ∨ c = '-') ∧ 0 < acc then (acc + 1, true)
    else (0, false)

/-- The `.replace` call in `Ashid.parse` that rewrites a trailing dash
delimiter to an underscore. -/
def dashToUnderscore (p : List Char) : List Char :=
  if p.getLast? = some '-' then p.dropLast ++ ['_'] else p

/-- `Ashid.parse`: split an identifier into (tag, encodedTimestamp,
encodedRandom). -/
def parse (id : List Char) : Except String (List Char × List Char × List Char) :=
  if id.length = 0 then .error "Invalid Ashid: cannot be empty"
  else
    let scanned := scanTag id 0
    let tagLength := scanned.1
    let hasDelimiter := scanned.2
    let tag := if hasDelimiter then dashToUnderscore (id.take tagLength) else []
    let baseId := id.drop tagLength
    if baseId.length = 0 then .error "Invalid Ashid: must have a base ID"
    else if hasDelimiter then
      if baseId.length ≤ RANDOM_ENCODED_LENGTH then .ok (tag, ['0'], baseId)
      else
        .ok (tag, baseId.take (baseId.length - RANDOM_ENCODED_LENGTH),
          baseId.drop (baseId.length - RANDOM_ENCODED_LENGTH))
    else if baseId.length = ASHID4_BASE_LENGTH then
      .ok (tag, baseId.take RANDOM_ENCODED_LENGTH, baseId.drop RANDOM_ENCODED_LENGTH)
    else if baseId.length = STANDARD_BASE_LENGTH then
      .ok (tag, baseId.take TIMESTAMP_ENCODED_LENGTH, baseId.drop TIMESTAMP_ENCODED_LENGTH)
    else
      .error ("Invalid Ashid: base ID must be 22 or 26 characters without delimiter (got "
        ++ toString baseId.length ++ ")")

/-- The tag-shape regex `/^[a-zA-Z0-9]+_$/` of `Ashid.isValid`. -/
def tagShapeOk (p : List Char) : Bool :=
  2 ≤ p.length && p.dropLast.all isAlnumChar && p.getLast? == some '_'

/-- `Ashid.isValid`. -/
def isValid (id : List Char) : Bool :=
  if id.length = 0 then false
  else
    match parse id with
    | .error _ => false
    | .ok (tag, encodedTimestamp, encodedRandom) =>
      if tag.length ≠ 0 ∧ ¬ tagShapeOk tag then false
      else
        match Encoder.decode encodedTimestamp, Encoder.decode encodedRandom with
        | .ok _, .ok _ => true
        | _, _ => false

/-- `Ashid.normalize`. -/
def normalize (id : List Char) : Except String (List Char) :=
  match parse id with
  | .error e => .error e
  | .ok (tag, encodedTimestamp, encodedRandom) =>
    match Encoder.decode encodedTimestamp with
    | .error e => .error e
    | .ok timestamp =>
      match Encoder.decodeBigInt encodedRandom with
      | .error e => .error e
      | .ok random =>
        let normalizedTag := if tag.length = 0 then none else some (tag.map toLowerChar)
        create normalizedTag (timestamp : Int) (random : Int)

end Ashid

/-- Plain lexicographic (dictionary) order on character lists, by code
point: the order used by string comparison in the sort-order claims. -/
def lexLt : List Char → List Char → Bool
  | [], [] => false
  | [], _ :: _ => true
  | _ :: _, [] => false
  | a :: as, b :: bs =>
    if a < b then true
    else if a = b then lexLt as bs
    else false

/-- The decode loop's accumulator action, as a pure function: the numeric
value reached from accumulator `a` after consuming `s`. -/
def valFrom (a : Nat) (s : List Char) : Nat :=
  s.foldl (fun acc c => acc * 32 + (Encoder.decodeChar c).toNat) a

/-- Numeric value of a digit string (decode loop from accumulator 0). -/
def valOf (s : List Char) : Nat := valFrom 0 s

/-- Every character `decodeChar` recognizes (digits, both cases of the 22
alphabet letters, and the lookalikes i, I, l, L, o, O, u, U). -/
def recognizedChars : List Char :=
  "0123456789oOiIlLuUaAbBcCdDeEfFgGhHjJkKmMnNpPqQrRsStTvVwWxXyYzZ".toList

/-- The exact set of input characters that decode to value `k`: the
canonical symbol in both cases, plus the documented lookalikes for the
values 0, 1 and 27. -/
def lookalikeInputs (k : Nat) : List Char :=
  if k = 0 then ['0', 'o', 'O']
  else if k = 1 then ['1', 'i', 'I', 'l', 'L']
  else if k = 27 then ['u', 'U', 'v', 'V']
  else if k < 32 then
    [Encoder.alphabet.getD k ' ', toUpperChar (Encoder.alphabet.getD k ' ')]
  else []

/-! ## Character-level lemmas -/

theorem charOfNat_toNat {n : Nat} (h : n < 55296) : (Char.ofNat n).toNat = n := by
  rw [Char.ofNat]
  rw [dif_pos (Or.inl (by omega : n < 0xd800))]
  rfl

theorem char_eq_of_toNat {c d : Char} (h : c.toNat = d.toNat) : c = d := by
  apply Char.eq_of_val_eq
  apply UInt32.eq_of_toBitVec_eq
  exact BitVec.eq_of_toNat_eq h

theorem toLowerChar_toNat (c : Char) :
    (toLowerChar c).toNat =
      if 65 ≤ c.toNat ∧ c.toNat ≤ 90 then c.toNat + 32 else c.toNat := by
  unfold toLowerChar
  split
  · next h => exact charOfNat_toNat (by omega)
  · rfl

theorem toUpperChar_toNat (c : Char) :
    (toUpperChar c).toNat =
      if 97 ≤ c.toNat ∧ c.toNat ≤ 122 then c.toNat - 32 else c.toNat := by
  unfold toUpperChar
  split
  · next h => exact charOfNat_toNat (by omega)
  · rfl

theorem toLowerChar_idem (c : Char) : toLowerChar (toLowerChar c) = toLowerChar c := by
  apply char_eq_of_toNat
  rw [toLowerChar_toNat (toLowerChar c), toLowerChar_toNat c]
  split_ifs <;> omega

theorem toLowerChar_toUpperChar (c : Char) :
    toLowerChar (toUpperChar c) = toLowerChar c := by
  apply char_eq_of_toNat
  rw [toLowerChar_toNat (toUpperChar c), toLowerChar_toNat c, toUpperChar_toNat c]
  split_ifs <;> omega

set_option maxHeartbeats 3000000 in
theorem decodeChar_spec (c : Char) : c ∈ recognizedChars ∨ Encoder.decodeChar c = -1 := by
  unfold Encoder.decodeChar
  split <;> simp_all +decide [recognizedChars]

theorem recognized_toNat_lt : ∀ c ∈ recognizedChars, (Encoder.decodeChar c).toNat < 32 := by
  decide

theorem recognized_good : ∀ c ∈ recognizedChars, Encoder.decodeChar c ≠ -1 := by
  decide

theorem decodeChar_toNat_lt (c : Char) : (Encoder.decodeChar c).toNat < 32 := by
  rcases decodeChar_spec c with h | h
  · exact recognized_toNat_lt c h
  · rw [h]; decide

theorem decodeChar_recognized {c : Char} (h : Encoder.decodeChar c ≠ -1) :
    c ∈ recognizedChars := by
  rcases decodeChar_spec c with h1 | h1
  · exact h1
  · exact absurd h1 h

theorem recognized_mem_iff :
    ∀ c ∈ recognizedChars, ∀ k, k < 32 →
      (Encoder.decodeChar c = Int.ofNat k ↔ c ∈ lookalikeInputs k) := by
  decide

theorem lookalike_mem_recognized :
    ∀ k, k < 32 → ∀ c ∈ lookalikeInputs k, c ∈ recognizedChars := by
  decide

theorem decodeChar_mem_iff (c : Char) (k : Nat) (hk : k < 32) :
    Encoder.decodeChar c = Int.ofNat k ↔ c ∈ lookalikeInputs k := by
  rcases decodeChar_spec c with h | h
  · exact recognized_mem_iff c h k hk
  · rw [h]
    constructor
    · intro he
      have h0 : (0 : Int) ≤ Int.ofNat k := Int.ofNat_nonneg k
      omega
    · intro hm
      exact absurd h (recognized_good c (lookalike_mem_recognized k hk c hm))

/-! ## encodeRecursive: unfolding, membership, value, length -/

theorem encodeRecursive_small {n : Nat} (h : n < 32) :
    Encoder.encodeRecursive n = [Encoder.alphabet.getD n ' '] := by
  rw [Encoder.encodeRecursive]
  rcases Nat.eq_zero_or_pos n with h0 | h0
  · subst h0; rfl
  · have h1 : n / 32 = 0 := Nat.div_eq_of_lt h
    have h2 : n % 32 = n := Nat.mod_eq_of_lt h
    have h3 : n ≠ 0 := by omega
    simp [h3, h1, h2]

theorem encodeRecursive_step {n : Nat} (h : 32 ≤ n) :
    Encoder.encodeRecursive n =
      Encoder.encodeRecursive (n / 32) ++ [Encoder.alphabet.getD (n % 32) ' '] := by
  rw [Encoder.encodeRecursive]
  have h0 : n ≠ 0 := by omega
  have h1 : n / 32 ≠ 0 := by
    have : 1 ≤ n / 32 := (Nat.one_le_div_iff (by norm_num)).mpr h
    omega
  simp [h0, h1]

/-! ## Alphabet facts (all by evaluation) -/

theorem mem_alphabet_getD : ∀ d, d < 32 → Encoder.alphabet.getD d ' ' ∈ Encoder.alphabet := by
  decide

theorem alphabet_val :
    ∀ d, d < 32 → (Encoder.decodeChar (Encoder.alphabet.getD d ' ')).toNat = d := by
  decide

theorem alphabet_good : ∀ c ∈ Encoder.alphabet, Encoder.decodeChar c ≠ -1 := by decide

theorem alphabet_lower : ∀ c ∈ Encoder.alphabet, toLowerChar c = c := by decide

theorem alphabet_alnum : ∀ c ∈ Encoder.alphabet, isAlnumChar c = true := by decide

theorem alphabet_no_delim : ∀ c ∈ Encoder.alphabet, c ≠ '_' ∧ c ≠ '-' := by decide

theorem alphabet_nonletter_digit :
    ∀ c ∈ Encoder.alphabet, isLetterChar c = false → isDigitChar c = true := by decide

/-! ## Numeric value of digit strings -/

theorem valFrom_nil (a : Nat) : valFrom a [] = a := rfl

theorem valFrom_cons (a : Nat) (c : Char) (s : List Char) :
    valFrom a (c :: s) = valFrom (a * 32 + (Encoder.decodeChar c).toNat) s := rfl

theorem valFrom_append (a : Nat) (s t : List Char) :
    valFrom a (s ++ t) = valFrom (valFrom a s) t := by
  simp [valFrom, List.foldl_append]

theorem valFrom_eq (s : List Char) : ∀ a, valFrom a s = a * 32 ^ s.length + valOf s := by
  induction s with
  | nil => intro a; simp [valOf, valFrom]
  | cons c s ih =>
    intro a
    rw [valFrom_cons]
    have h1 := ih (a * 32 + (Encoder.decodeChar c).toNat)
    have h2 : valOf (c :: s) = (Encoder.decodeChar c).toNat * 32 ^ s.length + valOf s := by
      show valFrom 0 (c :: s) = _
      rw [valFrom_cons]
      simpa using ih (Encoder.decodeChar c).toNat
    rw [h1, h2]
    simp [List.length_cons, pow_succ]
    ring

theorem valOf_cons (c : Char) (s : List Char) :
    valOf (c :: s) = (Encoder.decodeChar c).toNat * 32 ^ s.length + valOf s := by
  show valFrom 0 (c :: s) = _
  rw [valFrom_cons]
  simpa using valFrom_eq s (Encoder.decodeChar c).toNat

theorem valOf_append (s t : List Char) :
    valOf (s ++ t) = valOf s * 32 ^ t.length + valOf t := by
  show valFrom 0 (s ++ t) = _
  rw [valFrom_append, valFrom_eq]
  rfl

theorem valOf_lt (s : List Char) : valOf s < 32 ^ s.length := by
  induction s with
  | nil => simp [valOf, valFrom]
  | cons c s ih =>
    rw [valOf_cons]
    have h := decodeChar_toNat_lt c
    calc (Encoder.decodeChar c).toNat * 32 ^ s.length + valOf s
        < (Encoder.decodeChar c).toNat * 32 ^ s.length + 32 ^ s.length := by omega
      _ = ((Encoder.decodeChar c).toNat + 1) * 32 ^ s.length := by ring
      _ ≤ 32 * 32 ^ s.length := by
          exact Nat.mul_le_mul_right _ (by omega)
      _ = 32 ^ (c :: s).length := by rw [List.length_cons]; ring

theorem valOf_replicate_zero (k : Nat) : valOf (List.replicate k '0') = 0 := by
  induction k with
  | zero => rfl
  | succ k ih =>
    rw [List.replicate_succ]
    show valFrom 0 ('0' :: List.replicate k '0') = 0
    rw [valFrom_cons]
    simpa [show (Encoder.decodeChar '0').toNat = 0 from rfl] using ih

theorem valOf_zeros_append (k : Nat) (s : List Char) :
    valOf (List.replicate k '0' ++ s) = valOf s := by
  rw [valOf_append, valOf_replicate_zero]
  simp

/-! ## The decode loop -/

theorem decodeLoop_ok {s : List Char} (h : ∀ c ∈ s, Encoder.decodeChar c ≠ -1) :
    ∀ a, Encoder.decodeLoop s a = .ok (valFrom a s) := by
  induction s with
  | nil => intro a; rfl
  | cons c s ih =>
    intro a
    have hc : Encoder.decodeChar c ≠ -1 := h c (by simp)
    rw [Encoder.decodeLoop]
    simp only [hc, if_false, valFrom_cons]
    exact ih (fun x hx => h x (by simp [hx])) _

theorem decodeLoop_ok_inv {s : List Char} :
    ∀ {a v}, Encoder.decodeLoop s a = .ok v →
      v = valFrom a s ∧ ∀ c ∈ s, Encoder.decodeChar c ≠ -1 := by
  induction s with
  | nil =>
    intro a v h
    simp [Encoder.decodeLoop] at h
    simp [valFrom_nil, h]
  | cons c s ih =>
    intro a v h
    rw [Encoder.decodeLoop] at h
    by_cases hc : Encoder.decodeChar c = -1
    · simp [hc] at h
    · simp only [hc, if_false] at h
      obtain ⟨h1, h2⟩ := ih h
      refine ⟨by rw [valFrom_cons]; exact h1, ?_⟩
      intro x hx
      rcases List.mem_cons.mp hx with rfl | hx
      · exact hc
      · exact h2 x hx

theorem decode_good {s : List Char} (hne : s ≠ [])
    (h : ∀ c ∈ s, toLowerChar c = c ∧ Encoder.decodeChar c ≠ -1) :
    Encoder.decode s = .ok (valOf s) := by
  have hmap : s.map toLowerChar = s := by
    calc s.map toLowerChar = s.map id := List.map_congr_left (fun c hc => (h c hc).1)
      _ = s := List.map_id s
  rw [Encoder.decode, if_neg (by simpa using hne), hmap]
  exact decodeLoop_ok (fun c hc => (h c hc).2) 0

theorem decodeBigInt_eq_decode : Encoder.decodeBigInt = Encoder.decode := rfl

/-! ## Structure of encodings -/

theorem encodeRecursive_mem :
    ∀ n, ∀ c ∈ Encoder.encodeRecursive n, c ∈ Encoder.alphabet := by
  intro n
  induction n using Nat.strong_induction_on with
  | _ n ih =>
    intro c hc
    by_cases h : n < 32
    · rw [encodeRecursive_small h] at hc
      rw [List.mem_singleton] at hc
      subst hc
      exact mem_alphabet_getD n h
    · push_neg at h
      rw [encodeRecursive_step h] at hc
      rcases List.mem_append.mp hc with h1 | h1
      · exact ih (n / 32) (Nat.div_lt_self (by omega) (by norm_num)) c h1
      · rw [List.mem_singleton] at h1
        subst h1
        exact mem_alphabet_getD _ (Nat.mod_lt _ (by norm_num))

theorem valOf_singleton (c : Char) : valOf [c] = (Encoder.decodeChar c).toNat := by
  show valFrom 0 [c] = _
  rw [valFrom_cons, valFrom_nil]
  omega

theorem valOf_encodeRecursive : ∀ n, valOf (Encoder.encodeRecursive n) = n := by
  intro n
  induction n using Nat.strong_induction_on with
  | _ n ih =>
    by_cases h : n < 32
    · rw [encodeRecursive_small h, valOf_singleton, alphabet_val n h]
    · push_neg at h
      rw [encodeRecursive_step h, valOf_append]
      rw [ih (n / 32) (Nat.div_lt_self (by omega) (by norm_num))]
      rw [valOf_singleton, alphabet_val _ (Nat.mod_lt _ (by norm_num : (0:Nat) < 32))]
      simp only [List.length_singleton, pow_one]
      omega

theorem encodeRecursive_length_pos (n : Nat) : 0 < (Encoder.encodeRecursive n).length := by
  by_cases h : n < 32
  · rw [encodeRecursive_small h]; simp
  · push_neg at h
    rw [encodeRecursive_step h]
    simp

theorem encodeRecursive_ne_nil (n : Nat) : Encoder.encodeRecursive n ≠ [] := by
  have := encodeRecursive_length_pos n
  intro h
  rw [h] at this
  simp at this

theorem encodeRecursive_length_le :
    ∀ k, 0 < k → ∀ n, n < 32 ^ k → (Encoder.encodeRecursive n).length ≤ k := by
  intro k
  induction k with
  | zero => omega
  | succ k ih =>
    intro _ n hn
    by_cases h : n < 32
    · rw [encodeRecursive_small h]
      simp
    · push_neg at h
      rw [encodeRecursive_step h]
      have hk : 0 < k := by
        by_contra hk0
        have : k = 0 := by omega
        subst this
        simp at hn
        omega
      have hq : n / 32 < 32 ^ k := by
        rw [Nat.div_lt_iff_lt_mul (by norm_num)]
        calc n < 32 ^ (k + 1) := hn
          _ = 32 ^ k * 32 := by ring
      have := ih hk (n / 32) hq
      simp [List.length_append]
      omega

theorem encodeRecursive_length_ge :
    ∀ k, ∀ n, 32 ^ k ≤ n → k + 1 ≤ (Encoder.encodeRecursive n).length := by
  intro k
  induction k with
  | zero =>
    intro n _
    exact encodeRecursive_length_pos n
  | succ k ih =>
    intro n hn
    have h32 : 32 ≤ n := by
      calc 32 = 32 ^ 1 := by ring
        _ ≤ 32 ^ (k + 1) := Nat.pow_le_pow_right (by norm_num) (by omega)
        _ ≤ n := hn
    rw [encodeRecursive_step h32]
    have hq : 32 ^ k ≤ n / 32 := by
      rw [Nat.le_div_iff_mul_le (by norm_num)]
      calc 32 ^ k * 32 = 32 ^ (k + 1) := by ring
        _ ≤ n := hn
    have := ih (n / 32) hq
    simp [List.length_append]
    omega

theorem encodeRecursive_head_pos :
    ∀ n, n ≠ 0 → ∃ c s, Encoder.encodeRecursive n = c :: s ∧
      1 ≤ (Encoder.decodeChar c).toNat := by
  intro n
  induction n using Nat.strong_induction_on with
  | _ n ih =>
    intro hn
    by_cases h : n < 32
    · refine ⟨Encoder.alphabet.getD n ' ', [], encodeRecursive_small h, ?_⟩
      rw [alphabet_val n h]
      omega
    · push_neg at h
      obtain ⟨c, s, hcs, hv⟩ :=
        ih (n / 32) (Nat.div_lt_self (by omega) (by norm_num))
          (by
            have : 1 ≤ n / 32 := (Nat.one_le_div_iff (by norm_num)).mpr h
            omega)
      exact ⟨c, s ++ [Encoder.alphabet.getD (n % 32) ' '],
        by rw [encodeRecursive_step h, hcs]; rfl, hv⟩

/-! ## Padding -/

theorem padStart_length (w : Nat) (c : Char) (s : List Char) :
    (Encoder.padStart w c s).length = max w s.length := by
  simp [Encoder.padStart]
  omega

theorem padStart_eq_of_le {w : Nat} {s : List Char} (c : Char) (h : s.length ≥ w) :
    Encoder.padStart w c s = s := by
  simp [Encoder.padStart, Nat.sub_eq_zero_of_le h]

/-! ## Decoding encodings -/

theorem enc_chars_ok (n : Nat) :
    ∀ c ∈ Encoder.encodeRecursive n, toLowerChar c = c ∧ Encoder.decodeChar c ≠ -1 :=
  fun c hc => ⟨alphabet_lower c (encodeRecursive_mem n c hc),
    alphabet_good c (encodeRecursive_mem n c hc)⟩

theorem pad_enc_chars_ok (k n : Nat) :
    ∀ c ∈ Encoder.padStart k '0' (Encoder.encodeRecursive n),
      toLowerChar c = c ∧ Encoder.decodeChar c ≠ -1 := by
  intro c hc
  rw [Encoder.padStart] at hc
  rcases List.mem_append.mp hc with h1 | h1
  · have : c = '0' := List.eq_of_mem_replicate h1
    subst this
    exact ⟨by decide, by decide⟩
  · exact enc_chars_ok n c h1

theorem decode_encodeRecursive (n : Nat) :
    Encoder.decode (Encoder.encodeRecursive n) = .ok n := by
  rw [decode_good (encodeRecursive_ne_nil n) (enc_chars_ok n), valOf_encodeRecursive]

theorem decode_pad_encodeRecursive (k n : Nat) :
    Encoder.decode (Encoder.padStart k '0' (Encoder.encodeRecursive n)) = .ok n := by
  have hne : Encoder.padStart k '0' (Encoder.encodeRecursive n) ≠ [] := by
    intro h
    have h1 := congrArg List.length h
    rw [padStart_length, List.length_nil] at h1
    have h2 := encodeRecursive_length_pos n
    omega
  rw [decode_good hne (pad_enc_chars_ok k n), Encoder.padStart,
    valOf_zeros_append, valOf_encodeRecursive]

/-! ## Lexicographic order vs numeric value -/

theorem alphabet_lt_iff :
    ∀ c ∈ Encoder.alphabet, ∀ d ∈ Encoder.alphabet,
      (c < d ↔ (Encoder.decodeChar c).toNat < (Encoder.decodeChar d).toNat) := by
  decide

theorem lexLt_nil_nil : lexLt [] [] = false := rfl

theorem lexLt_cons_cons (a b : Char) (s t : List Char) :
    lexLt (a :: s) (b :: t) =
      if a < b then true else if a = b then lexLt s t else false := by
  rfl

theorem lexLt_append_same (A : List Char) :
    ∀ C D, lexLt (A ++ C) (A ++ D) = lexLt C D := by
  induction A with
  | nil => intro C D; rfl
  | cons a A ih =>
    intro C D
    rw [List.cons_append, List.cons_append, lexLt_cons_cons]
    simp [lt_irrefl, ih]

theorem lexLt_append_of_lt :
    ∀ A B : List Char, A.length = B.length → lexLt A B = true →
      ∀ C D, lexLt (A ++ C) (B ++ D) = true := by
  intro A
  induction A with
  | nil =>
    intro B hlen h
    cases B with
    | nil => exact absurd h (by rw [lexLt_nil_nil]; simp)
    | cons b B => simp at hlen
  | cons a A ih =>
    intro B hlen h C D
    cases B with
    | nil => simp at hlen
    | cons b B =>
      rw [List.cons_append, List.cons_append, lexLt_cons_cons]
      rw [lexLt_cons_cons] at h
      by_cases hab : a < b
      · simp [hab]
      · simp only [hab, if_false] at h ⊢
        by_cases heq : a = b
        · subst heq
          simp only [if_pos rfl] at h ⊢
          exact ih B (by simpa using hlen) h C D
        · simp [heq] at h

theorem lexLt_iff_valOf {s : List Char} :
    ∀ t, s.length = t.length →
      (∀ c ∈ s, c ∈ Encoder.alphabet) → (∀ c ∈ t, c ∈ Encoder.alphabet) →
      (lexLt s t = true ↔ valOf s < valOf t) := by
  induction s with
  | nil =>
    intro t hlen _ _
    cases t with
    | nil => rw [lexLt_nil_nil]; simp
    | cons b t => simp at hlen
  | cons a s ih =>
    intro t hlen hs ht
    cases t with
    | nil => simp at hlen
    | cons b t =>
      have ha : a ∈ Encoder.alphabet := hs a (by simp)
      have hb : b ∈ Encoder.alphabet := ht b (by simp)
      have hs2 : ∀ c ∈ s, c ∈ Encoder.alphabet := fun c hc => hs c (by simp [hc])
      have ht2 : ∀ c ∈ t, c ∈ Encoder.alphabet := fun c hc => ht c (by simp [hc])
      have hlen2 : s.length = t.length := by simpa using hlen
      rw [valOf_cons, valOf_cons, hlen2, lexLt_cons_cons]
      have hvs : valOf s < 32 ^ t.length := by rw [← hlen2]; exact valOf_lt s
      have hvt : valOf t < 32 ^ t.length := valOf_lt t
      by_cases hab : a < b
      · have hv : (Encoder.decodeChar a).toNat < (Encoder.decodeChar b).toNat :=
          (alphabet_lt_iff a ha b hb).mp hab
        have h3 : ((Encoder.decodeChar a).toNat + 1) * 32 ^ t.length ≤
            (Encoder.decodeChar b).toNat * 32 ^ t.length :=
          Nat.mul_le_mul_right _ (by omega)
        rw [Nat.succ_mul] at h3
        rw [if_pos hab]
        constructor
        · intro _; omega
        · intro _; rfl
      · by_cases heq : a = b
        · subst heq
          rw [if_neg hab, if_pos rfl]
          rw [ih t hlen2 hs2 ht2]
          omega
        · have hba : b < a := by
            rcases lt_trichotomy a b with h1 | h1 | h1
            · exact absurd h1 hab
            · exact absurd h1 heq
            · exact h1
          have hv : (Encoder.decodeChar b).toNat < (Encoder.decodeChar a).toNat :=
            (alphabet_lt_iff b hb a ha).mp hba
          have h3 : ((Encoder.decodeChar b).toNat + 1) * 32 ^ t.length ≤
              (Encoder.decodeChar a).toNat * 32 ^ t.length :=
            Nat.mul_le_mul_right _ (by omega)
          rw [Nat.succ_mul] at h3
          rw [if_neg hab, if_neg heq]
          constructor
          · intro hfalse; simp at hfalse
          · intro hlt; omega

/-! ## The delimiter scan of parse -/

theorem scanTag_nil (acc : Nat) : Ashid.scanTag [] acc = (acc, false) := rfl

theorem scanTag_cons_letter {c : Char} (h : isLetterChar c = true)
    (rest : List Char) (acc : Nat) :
    Ashid.scanTag (c :: rest) acc = Ashid.scanTag rest (acc + 1) := by
  rw [Ashid.scanTag]
  simp [h]

theorem scanTag_cons_nonletter {c : Char} (h : isLetterChar c = false)
    (rest : List Char) (acc : Nat) :
    Ashid.scanTag (c :: rest) acc =
      if (c = '_' ∨ c = '-') ∧ 0 < acc then (acc + 1, true) else (0, false) := by
  rw [Ashid.scanTag]
  simp [h]

theorem scanTag_letters {L : List Char} (hL : ∀ c ∈ L, isLetterChar c = true) :
    ∀ (rest : List Char) (acc : Nat),
      Ashid.scanTag (L ++ rest) acc = Ashid.scanTag rest (acc + L.length) := by
  induction L with
  | nil => intro rest acc; simp
  | cons c L ih =>
    intro rest acc
    rw [List.cons_append, scanTag_cons_letter (hL c (by simp))]
    rw [ih (fun x hx => hL x (by simp [hx])) rest (acc + 1)]
    congr 1
    simp [List.length_cons]
    omega

theorem scanTag_no_delim {s : List Char} :
    (∀ c ∈ s, c ≠ '_' ∧ c ≠ '-') → (∃ c ∈ s, isLetterChar c = false) →
      ∀ acc, Ashid.scanTag s acc = (0, false) := by
  induction s with
  | nil =>
    intro _ hnl
    simp at hnl
  | cons c rest ih =>
    intro h hnl acc
    by_cases hc : isLetterChar c = true
    · rw [scanTag_cons_letter hc]
      apply ih (fun x hx => h x (by simp [hx]))
      rcases hnl with ⟨x, hx, hxf⟩
      rcases List.mem_cons.mp hx with rfl | hx2
      · rw [hc] at hxf
        simp at hxf
      · exact ⟨x, hx2, hxf⟩
    · have hc2 : isLetterChar c = false := by simpa using hc
      rw [scanTag_cons_nonletter hc2]
      rw [if_neg]
      intro hcond
      rcases hcond.1 with h1 | h1
      · exact (h c (by simp)).1 h1
      · exact (h c (by simp)).2 h1

theorem scanTag_true_inv :
    ∀ (s : List Char) (acc k : Nat), Ashid.scanTag s acc = (k, true) →
      ∃ L c rest, s = L ++ c :: rest ∧ (∀ x ∈ L, isLetterChar x = true) ∧
        (c = '_' ∨ c = '-') ∧ isLetterChar c = false ∧
        0 < acc + L.length ∧ k = acc + L.length + 1 := by
  intro s
  induction s with
  | nil =>
    intro acc k h
    rw [scanTag_nil] at h
    simp at h
  | cons c rest ih =>
    intro acc k h
    by_cases hc : isLetterChar c = true
    · rw [scanTag_cons_letter hc] at h
      obtain ⟨L, d, r2, heq, hL, hd, hdl, hpos, hk⟩ := ih (acc + 1) k h
      refine ⟨c :: L, d, r2, by rw [List.cons_append, heq], ?_, hd, hdl, ?_, ?_⟩
      · intro x hx
        rcases List.mem_cons.mp hx with rfl | hx2
        · exact hc
        · exact hL x hx2
      · simp [List.length_cons]
      · simp [List.length_cons]
        omega
    · have hc2 : isLetterChar c = false := by simpa using hc
      rw [scanTag_cons_nonletter hc2] at h
      split at h
      · next hcond =>
        have h1 : acc + 1 = k := (Prod.mk.injEq _ _ _ _).mp h |>.1
        refine ⟨[], c, rest, rfl, by simp, hcond.1, hc2, ?_, ?_⟩
        · simp
          omega
        · simp
          omega
      · next =>
        simp at h

/-! ## Characterizing parse on well-shaped inputs -/

theorem dashToUnderscore_underscore (cl : List Char) :
    Ashid.dashToUnderscore (cl ++ ['_']) = cl ++ ['_'] := by
  unfold Ashid.dashToUnderscore
  rw [List.getLast?_concat]
  simp

theorem parse_tagged {cl base : List Char}
    (hcl : cl ≠ []) (hletters : ∀ c ∈ cl, isLetterChar c = true) (hbase : base ≠ []) :
    Ashid.parse (cl ++ '_' :: base) =
      if base.length ≤ 13 then .ok (cl ++ ['_'], ['0'], base)
      else .ok (cl ++ ['_'], base.take (base.length - 13),
        base.drop (base.length - 13)) := by
  have hclen : cl.length ≠ 0 := by simpa [List.length_eq_zero] using hcl
  have hscan : Ashid.scanTag (cl ++ '_' :: base) 0 = (cl.length + 1, true) := by
    rw [scanTag_letters hletters]
    rw [scanTag_cons_nonletter (by decide : isLetterChar '_' = false)]
    rw [if_pos ⟨Or.inl rfl, by omega⟩]
    congr 1
    omega
  have hsplit : cl ++ '_' :: base = (cl ++ ['_']) ++ base := by simp
  have htake : (cl ++ '_' :: base).take (cl.length + 1) = cl ++ ['_'] := by
    rw [hsplit]
    have : cl.length + 1 = (cl ++ ['_']).length := by simp
    rw [this, List.take_left]
  have hdrop : (cl ++ '_' :: base).drop (cl.length + 1) = base := by
    rw [hsplit]
    have : cl.length + 1 = (cl ++ ['_']).length := by simp
    rw [this, List.drop_left]
  have hlen : (cl ++ '_' :: base).length ≠ 0 := by simp
  simp only [Ashid.parse, hscan, if_neg hlen, htake, hdrop, eq_self_iff_true,
    if_true, dashToUnderscore_underscore]
  rw [if_neg (by simpa [List.length_eq_zero] using hbase)]
  rfl

theorem parse_untagged {s : List Char} (hne : s ≠ [])
    (hnodelim : ∀ c ∈ s, c ≠ '_' ∧ c ≠ '-')
    (hnl : ∃ c ∈ s, isLetterChar c = false) :
    Ashid.parse s =
      if s.length = 26 then .ok ([], s.take 13, s.drop 13)
      else if s.length = 22 then .ok ([], s.take 9, s.drop 9)
      else .error ("Invalid Ashid: base ID must be 22 or 26 characters without delimiter (got "
        ++ toString s.length ++ ")") := by
  have hscan : Ashid.scanTag s 0 = (0, false) := scanTag_no_delim hnodelim hnl 0
  have hlen : s.length ≠ 0 := by simpa [List.length_eq_zero] using hne
  simp only [Ashid.parse, hscan, if_neg hlen, List.drop_zero, Bool.false_eq_true,
    if_false]
  rfl

/-! ## Characterizing create on valid inputs -/

theorem normalizeTag_none : Ashid.normalizeTag none = none := rfl

theorem normalizeTag_some {p : List Char}
    (h : (p.filter isAlnumChar).map toLowerChar ≠ []) :
    Ashid.normalizeTag (some p) =
      some ((p.filter isAlnumChar).map toLowerChar ++ ['_']) := by
  have hp : p ≠ [] := by
    intro h0
    subst h0
    simp at h
  simp only [Ashid.normalizeTag]
  rw [if_neg (by simpa [List.length_eq_zero] using hp)]
  rw [if_neg (by simpa [List.length_eq_zero] using h)]

theorem create_ok_none {t r : Int} (ht0 : 0 ≤ t) (ht1 : t ≤ Ashid.MAX_TIMESTAMP)
    (hr : 0 ≤ r) :
    Ashid.create none t r =
      .ok (Encoder.padStart 9 '0' (Encoder.encodeRecursive t.toNat) ++
        Encoder.padStart 13 '0' (Encoder.encodeRecursive r.toNat)) := by
  unfold Ashid.create
  rw [if_neg (by omega), if_neg (by omega), if_neg (by omega)]
  rfl

theorem create_ok_some {p v : List Char} {t r : Int}
    (hcl : Ashid.normalizeTag (some p) = some v)
    (ht0 : 0 ≤ t) (ht1 : t ≤ Ashid.MAX_TIMESTAMP) (hr : 0 ≤ r) :
    Ashid.create (some p) t r =
      .ok (v ++
        (if 0 < t.toNat then
          Encoder.encodeRecursive t.toNat ++
            Encoder.padStart 13 '0' (Encoder.encodeRecursive r.toNat)
        else Encoder.encodeRecursive r.toNat)) := by
  unfold Ashid.create
  rw [hcl]
  rw [if_neg (by omega), if_neg (by omega), if_neg (by omega)]
  by_cases ht : 0 < t.toNat
  · rw [if_pos ht]
    simp only [Option.getD_some, ht, if_pos]
    rfl
  · rw [if_neg ht]
    simp only [Option.getD_some, ht, if_neg]
    rfl

/-! ## Derived facts about encodings and padding -/

theorem pad_enc_mem (k n : Nat) :
    ∀ c ∈ Encoder.padStart k '0' (Encoder.encodeRecursive n), c ∈ Encoder.alphabet := by
  intro c hc
  rw [Encoder.padStart] at hc
  rcases List.mem_append.mp hc with h1 | h1
  · have : c = '0' := List.eq_of_mem_replicate h1
    subst this
    decide
  · exact encodeRecursive_mem n c h1

theorem enc_len_le_of_lt {k n : Nat} (hk : 0 < k) (h : n < 32 ^ k) :
    (Encoder.encodeRecursive n).length ≤ k :=
  encodeRecursive_length_le k hk n h

theorem pad_enc_length {k n : Nat} (hk : 0 < k) (h : n < 32 ^ k) :
    (Encoder.padStart k '0' (Encoder.encodeRecursive n)).length = k := by
  rw [padStart_length]
  have := enc_len_le_of_lt hk h
  omega

theorem valOf_pad_enc (k n : Nat) :
    valOf (Encoder.padStart k '0' (Encoder.encodeRecursive n)) = n := by
  rw [Encoder.padStart, valOf_zeros_append, valOf_encodeRecursive]

theorem lexLt_pad_lt {k m n : Nat} (hk : 0 < k) (hm : m < 32 ^ k) (hn : n < 32 ^ k)
    (h : m < n) :
    lexLt (Encoder.padStart k '0' (Encoder.encodeRecursive m))
      (Encoder.padStart k '0' (Encoder.encodeRecursive n)) = true := by
  rw [lexLt_iff_valOf _ (by rw [pad_enc_length hk hm, pad_enc_length hk hn])
    (pad_enc_mem k m) (pad_enc_mem k n)]
  rw [valOf_pad_enc, valOf_pad_enc]
  exact h

theorem lexLt_enc_eqlen {m n : Nat} (h : m < n)
    (hlen : (Encoder.encodeRecursive m).length = (Encoder.encodeRecursive n).length) :
    lexLt (Encoder.encodeRecursive m) (Encoder.encodeRecursive n) = true := by
  rw [lexLt_iff_valOf _ hlen (encodeRecursive_mem m) (encodeRecursive_mem n)]
  rw [valOf_encodeRecursive, valOf_encodeRecursive]
  exact h

/-! ## Inversion lemmas -/

theorem decode_ok_lt {s : List Char} {v : Nat} (h : Encoder.decode s = .ok v) :
    v < 32 ^ s.length := by
  rw [Encoder.decode] at h
  by_cases h0 : s.length = 0
  · rw [if_pos h0] at h
    cases h
  · rw [if_neg h0] at h
    obtain ⟨h1, _⟩ := decodeLoop_ok_inv h
    subst h1
    have := valOf_lt (s.map toLowerChar)
    simpa using this

theorem decodeLoop_err {l : List Char} {c : Char} (hc : c ∈ l)
    (h : Encoder.decodeChar c = -1) :
    ∀ a, ∃ e, Encoder.decodeLoop l a = .error e := by
  induction l with
  | nil => simp at hc
  | cons d rest ih =>
    intro a
    simp only [Encoder.decodeLoop]
    by_cases hd : Encoder.decodeChar d = -1
    · rw [if_pos hd]
      exact ⟨_, rfl⟩
    · rw [if_neg hd]
      rcases List.mem_cons.mp hc with rfl | hc2
      · exact absurd h hd
      · exact ih hc2 _

theorem decode_err_of_bad {s : List Char} {c : Char} (hc : c ∈ s)
    (h : Encoder.decodeChar (toLowerChar c) = -1) :
    ∃ e, Encoder.decode s = .error e := by
  rw [Encoder.decode]
  have hs0 : s.length ≠ 0 := by
    intro h0
    rw [List.length_eq_zero] at h0
    subst h0
    simp at hc
  rw [if_neg hs0]
  exact decodeLoop_err (List.mem_map_of_mem toLowerChar hc) h 0

theorem create_ok_bounds {tag : Option (List Char)} {t r : Int} {s : List Char}
    (h : Ashid.create tag t r = .ok s) :
    0 ≤ t ∧ t ≤ Ashid.MAX_TIMESTAMP ∧ 0 ≤ r := by
  unfold Ashid.create at h
  by_cases h1 : t < 0
  · rw [if_pos h1] at h
    cases h
  · rw [if_neg h1] at h
    by_cases h2 : Ashid.MAX_TIMESTAMP < t
    · rw [if_pos h2] at h
      cases h
    · rw [if_neg h2] at h
      by_cases h3 : r < 0
      · rw [if_pos h3] at h
        cases h
      · exact ⟨by omega, by omega, by omega⟩

theorem scanTag_false_inv :
    ∀ (s : List Char) (acc k : Nat), Ashid.scanTag s acc = (k, false) →
      k = 0 ∨ (k = acc + s.length ∧ ∀ c ∈ s, isLetterChar c = true) := by
  intro s
  induction s with
  | nil =>
    intro acc k h
    rw [scanTag_nil] at h
    right
    refine ⟨?_, by simp⟩
    have := (Prod.mk.injEq _ _ _ _).mp h
    simp at this ⊢
    omega
  | cons c rest ih =>
    intro acc k h
    by_cases hc : isLetterChar c = true
    · rw [scanTag_cons_letter hc] at h
      rcases ih (acc + 1) k h with h1 | ⟨h1, h2⟩
      · left; exact h1
      · right
        refine ⟨by simp [List.length_cons]; omega, ?_⟩
        intro x hx
        rcases List.mem_cons.mp hx with rfl | hx2
        · exact hc
        · exact h2 x hx2
    · have hc2 : isLetterChar c = false := by simpa using hc
      rw [scanTag_cons_nonletter hc2] at h
      split at h
      · exact absurd ((Prod.mk.injEq _ _ _ _).mp h).2 (by simp)
      · left
        exact ((Prod.mk.injEq _ _ _ _).mp h).1.symm

theorem dashToUnderscore_dash (cl : List Char) :
    Ashid.dashToUnderscore (cl ++ ['-']) = cl ++ ['_'] := by
  unfold Ashid.dashToUnderscore
  rw [List.getLast?_concat]
  simp

theorem parse_ok_inv {s p ets erd : List Char}
    (h : Ashid.parse s = .ok (p, ets, erd)) :
    (p = [] ∨ ∃ q, p = q ++ ['_'] ∧ q ≠ [] ∧ ∀ c ∈ q, isLetterChar c = true) ∧
    erd.length ≤ 13 := by
  simp only [Ashid.parse] at h
  by_cases h0 : s.length = 0
  · rw [if_pos h0] at h
    cases h
  · rw [if_neg h0] at h
    rcases hscan : Ashid.scanTag s 0 with ⟨k, b⟩
    rw [hscan] at h
    simp only at h
    cases b with
    | true =>
      obtain ⟨L, c, rest, hs, hL, hdelim, hcl, hpos, hk⟩ := scanTag_true_inv s 0 k hscan
      have hLne : L ≠ [] := by
        intro hnil
        subst hnil
        simp at hpos
      have hsplit : s = (L ++ [c]) ++ rest := by rw [hs]; simp
      have hklen : k = (L ++ [c]).length := by simp; omega
      have htake : s.take k = L ++ [c] := by rw [hsplit, hklen, List.take_left]
      have hdrop : s.drop k = rest := by rw [hsplit, hklen, List.drop_left]
      have hdash : Ashid.dashToUnderscore (L ++ [c]) = L ++ ['_'] := by
        rcases hdelim with rfl | rfl
        · exact dashToUnderscore_underscore L
        · exact dashToUnderscore_dash L
      rw [htake, hdrop, hdash] at h
      simp only [eq_self_iff_true, if_true] at h
      by_cases hr0 : rest.length = 0
      · rw [if_pos hr0] at h
        cases h
      · rw [if_neg hr0] at h
        by_cases hr13 : rest.length ≤ Ashid.RANDOM_ENCODED_LENGTH
        · rw [if_pos hr13] at h
          simp only [Except.ok.injEq, Prod.mk.injEq] at h
          obtain ⟨hp, hts, hrd⟩ := h
          refine ⟨Or.inr ⟨L, hp.symm, hLne, hL⟩, ?_⟩
          rw [← hrd]
          exact hr13
        · rw [if_neg hr13] at h
          simp only [Except.ok.injEq, Prod.mk.injEq] at h
          obtain ⟨hp, hts, hrd⟩ := h
          refine ⟨Or.inr ⟨L, hp.symm, hLne, hL⟩, ?_⟩
          rw [← hrd, List.length_drop]
          simp only [Ashid.RANDOM_ENCODED_LENGTH] at hr13 ⊢
          omega
    | false =>
      simp only [Bool.false_eq_true, if_false] at h
      by_cases hb0 : (s.drop k).length = 0
      · rw [if_pos hb0] at h
        cases h
      · rw [if_neg hb0] at h
        by_cases h26 : (s.drop k).length = Ashid.ASHID4_BASE_LENGTH
        · rw [if_pos h26] at h
          simp only [Except.ok.injEq, Prod.mk.injEq] at h
          obtain ⟨hp, hts, hrd⟩ := h
          refine ⟨Or.inl hp.symm, ?_⟩
          rw [← hrd, List.length_drop]
          simp [Ashid.ASHID4_BASE_LENGTH] at h26
          simp [Ashid.RANDOM_ENCODED_LENGTH]
          omega
        · rw [if_neg h26] at h
          by_cases h22 : (s.drop k).length = Ashid.STANDARD_BASE_LENGTH
          · rw [if_pos h22] at h
            simp only [Except.ok.injEq, Prod.mk.injEq] at h
            obtain ⟨hp, hts, hrd⟩ := h
            refine ⟨Or.inl hp.symm, ?_⟩
            rw [← hrd, List.length_drop]
            simp [Ashid.STANDARD_BASE_LENGTH] at h22
            simp [Ashid.TIMESTAMP_ENCODED_LENGTH]
            omega
          · rw [if_neg h22] at h
            cases h

theorem parse_error_of_bad_length {s : List Char} (hne : s ≠ [])
    (hnodelim : ∀ c ∈ s, c ≠ '_' ∧ c ≠ '-')
    (h22 : s.length ≠ 22) (h26 : s.length ≠ 26) :
    ∃ e, Ashid.parse s = .error e := by
  have hlen : s.length ≠ 0 := by simpa [List.length_eq_zero] using hne
  rcases hscan : Ashid.scanTag s 0 with ⟨k, b⟩
  cases b with
  | true =>
    obtain ⟨L, c, rest, hs, hL, hdelim, hcl, hpos, hk⟩ := scanTag_true_inv s 0 k hscan
    have hc : c ∈ s := by rw [hs]; simp
    rcases hdelim with rfl | rfl
    · exact absurd rfl (hnodelim _ hc).1
    · exact absurd rfl (hnodelim _ hc).2
  | false =>
    rcases scanTag_false_inv s 0 k hscan with rfl | ⟨hk, hall⟩
    · refine ⟨"Invalid Ashid: base ID must be 22 or 26 characters without delimiter (got "
        ++ toString s.length ++ ")", ?_⟩
      simp only [Ashid.parse, hscan, if_neg hlen, List.drop_zero, Bool.false_eq_true,
        if_false]
      rw [if_neg (by simpa [Ashid.ASHID4_BASE_LENGTH] using h26)]
      rw [if_neg (by simpa [Ashid.STANDARD_BASE_LENGTH] using h22)]
    · refine ⟨"Invalid Ashid: must have a base ID", ?_⟩
      simp only [Ashid.parse, hscan, if_neg hlen, Bool.false_eq_true, if_false]
      rw [if_pos (by rw [hk]; simp)]

theorem isValid_false_of_parse_error {s : List Char} {e : String} (hne : s ≠ [])
    (h : Ashid.parse s = .error e) : Ashid.isValid s = false := by
  unfold Ashid.isValid
  rw [if_neg (by simpa [List.length_eq_zero] using hne), h]

/-! ## Character-class transport lemmas -/

theorem isLetter_toLower {c : Char} (h : isLetterChar c = true) :
    isLetterChar (toLowerChar c) = true := by
  simp only [isLetterChar, Bool.or_eq_true, Bool.and_eq_true, decide_eq_true_eq] at h ⊢
  rw [toLowerChar_toNat]
  split_ifs <;> omega

theorem isAlnum_toLower_letter {c : Char} (h : isLetterChar c = true) :
    isAlnumChar (toLowerChar c) = true := by
  simp only [isAlnumChar, Bool.or_eq_true]
  exact Or.inl (isLetter_toLower h)

theorem alnum_nonletter_digit {c : Char} (ha : isAlnumChar c = true)
    (hl : isLetterChar c = false) : isDigitChar c = true := by
  simp only [isAlnumChar, Bool.or_eq_true] at ha
  rcases ha with h1 | h1
  · rw [h1] at hl
    cases hl
  · simp only [isDigitChar]
    exact h1

theorem digit_not_letter {c : Char} (h : isDigitChar c = true) :
    isLetterChar c = false := by
  simp only [isDigitChar, Bool.and_eq_true, decide_eq_true_eq] at h
  simp only [isLetterChar, Bool.or_eq_true, Bool.and_eq_true, decide_eq_true_eq]
  simp only [Bool.eq_false_iff]
  intro hx
  rcases (Bool.or_eq_true _ _).mp hx with h1 | h1 <;>
    · simp only [Bool.and_eq_true, decide_eq_true_eq] at h1
      omega

/-! ## Round-trips through create and parse -/

theorem roundtrip_tagged {p cl : List Char} {t r : Nat}
    (hcl : Ashid.normalizeTag (some p) = some (cl ++ ['_']))
    (hletters : ∀ c ∈ cl, isLetterChar c = true) (hclne : cl ≠ [])
    (ht : t ≤ 35184372088831) (hr : r < 32 ^ 13) :
    ∃ s ets erd,
      Ashid.create (some p) (t : Int) (r : Int) = .ok s ∧
      Ashid.parse s = .ok (cl ++ ['_'], ets, erd) ∧
      Encoder.decode ets = .ok t ∧ Encoder.decodeBigInt erd = .ok r := by
  have ht2 : ((t : Int)).toNat = t := by omega
  have hr2 : ((r : Int)).toNat = r := by omega
  have hcreate := create_ok_some (t := (t : Int)) (r := (r : Int)) hcl
    (by omega) (by simp only [Ashid.MAX_TIMESTAMP]; omega) (by omega)
  rw [ht2, hr2] at hcreate
  by_cases h0 : 0 < t
  · rw [if_pos h0] at hcreate
    have hlenpad : (Encoder.padStart 13 '0' (Encoder.encodeRecursive r)).length = 13 :=
      pad_enc_length (by norm_num) hr
    have hbasene : Encoder.encodeRecursive t ++
        Encoder.padStart 13 '0' (Encoder.encodeRecursive r) ≠ [] := by
      simp [encodeRecursive_ne_nil]
    have hlenbase : (Encoder.encodeRecursive t ++
        Encoder.padStart 13 '0' (Encoder.encodeRecursive r)).length =
        (Encoder.encodeRecursive t).length + 13 := by
      simp [hlenpad]
    have hpos := encodeRecursive_length_pos t
    have h13 : ¬ (Encoder.encodeRecursive t ++
        Encoder.padStart 13 '0' (Encoder.encodeRecursive r)).length ≤ 13 := by
      omega
    have hparse := parse_tagged hclne hletters hbasene
    rw [if_neg h13] at hparse
    have hsub : (Encoder.encodeRecursive t ++
        Encoder.padStart 13 '0' (Encoder.encodeRecursive r)).length - 13 =
        (Encoder.encodeRecursive t).length := by omega
    have htk : (Encoder.encodeRecursive t ++
        Encoder.padStart 13 '0' (Encoder.encodeRecursive r)).take
          ((Encoder.encodeRecursive t ++
            Encoder.padStart 13 '0' (Encoder.encodeRecursive r)).length - 13) =
        Encoder.encodeRecursive t := by
      rw [hsub, List.take_left]
    have hdr : (Encoder.encodeRecursive t ++
        Encoder.padStart 13 '0' (Encoder.encodeRecursive r)).drop
          ((Encoder.encodeRecursive t ++
            Encoder.padStart 13 '0' (Encoder.encodeRecursive r)).length - 13) =
        Encoder.padStart 13 '0' (Encoder.encodeRecursive r) := by
      rw [hsub, List.drop_left]
    rw [htk, hdr] at hparse
    refine ⟨_, Encoder.encodeRecursive t,
      Encoder.padStart 13 '0' (Encoder.encodeRecursive r), hcreate, ?_, ?_, ?_⟩
    · rw [show (cl ++ ['_']) ++ (Encoder.encodeRecursive t ++
        Encoder.padStart 13 '0' (Encoder.encodeRecursive r)) =
        cl ++ '_' :: (Encoder.encodeRecursive t ++
          Encoder.padStart 13 '0' (Encoder.encodeRecursive r)) by simp]
      exact hparse
    · exact decode_encodeRecursive t
    · rw [decodeBigInt_eq_decode]
      exact decode_pad_encodeRecursive 13 r
  · have ht0 : t = 0 := by omega
    rw [if_neg h0] at hcreate
    have hencne := encodeRecursive_ne_nil r
    have hlenr : (Encoder.encodeRecursive r).length ≤ 13 :=
      enc_len_le_of_lt (by norm_num) hr
    have hparse := parse_tagged hclne hletters hencne
    rw [if_pos hlenr] at hparse
    refine ⟨_, ['0'], Encoder.encodeRecursive r, hcreate, ?_, ?_, ?_⟩
    · rw [show (cl ++ ['_']) ++ Encoder.encodeRecursive r =
        cl ++ '_' :: Encoder.encodeRecursive r by simp]
      exact hparse
    · rw [ht0]
      rfl
    · rw [decodeBigInt_eq_decode]
      exact decode_encodeRecursive r

theorem roundtrip_untagged {t r : Nat} (ht : t ≤ 35184372088831) (hr : r < 32 ^ 13)
    (hnl : ∃ c ∈ Encoder.padStart 9 '0' (Encoder.encodeRecursive t) ++
      Encoder.padStart 13 '0' (Encoder.encodeRecursive r), isLetterChar c = false) :
    Ashid.create none (t : Int) (r : Int) =
      .ok (Encoder.padStart 9 '0' (Encoder.encodeRecursive t) ++
        Encoder.padStart 13 '0' (Encoder.encodeRecursive r)) ∧
    Ashid.parse (Encoder.padStart 9 '0' (Encoder.encodeRecursive t) ++
        Encoder.padStart 13 '0' (Encoder.encodeRecursive r)) =
      .ok ([], Encoder.padStart 9 '0' (Encoder.encodeRecursive t),
        Encoder.padStart 13 '0' (Encoder.encodeRecursive r)) ∧
    Encoder.decode (Encoder.padStart 9 '0' (Encoder.encodeRecursive t)) = .ok t ∧
    Encoder.decodeBigInt (Encoder.padStart 13 '0' (Encoder.encodeRecursive r)) = .ok r := by
  have ht2 : ((t : Int)).toNat = t := by omega
  have hr2 : ((r : Int)).toNat = r := by omega
  have hcreate := create_ok_none (t := (t : Int)) (r := (r : Int))
    (by omega) (by simp only [Ashid.MAX_TIMESTAMP]; omega) (by omega)
  rw [ht2, hr2] at hcreate
  have hlent : (Encoder.padStart 9 '0' (Encoder.encodeRecursive t)).length = 9 :=
    pad_enc_length (by norm_num) (by norm_num at ht ⊢; omega)
  have hlenr : (Encoder.padStart 13 '0' (Encoder.encodeRecursive r)).length = 13 :=
    pad_enc_length (by norm_num) hr
  have hmem : ∀ c ∈ Encoder.padStart 9 '0' (Encoder.encodeRecursive t) ++
      Encoder.padStart 13 '0' (Encoder.encodeRecursive r), c ∈ Encoder.alphabet := by
    intro c hc
    rcases List.mem_append.mp hc with h1 | h1
    · exact pad_enc_mem 9 t c h1
    · exact pad_enc_mem 13 r c h1
  have hne : Encoder.padStart 9 '0' (Encoder.encodeRecursive t) ++
      Encoder.padStart 13 '0' (Encoder.encodeRecursive r) ≠ [] := by
    intro h
    have := congrArg List.length h
    simp [hlent, hlenr] at this
  have hparse := parse_untagged hne
    (fun c hc => alphabet_no_delim c (hmem c hc)) hnl
  have hlen22 : (Encoder.padStart 9 '0' (Encoder.encodeRecursive t) ++
      Encoder.padStart 13 '0' (Encoder.encodeRecursive r)).length = 22 := by
    simp [hlent, hlenr]
  rw [hlen22] at hparse
  rw [if_neg (by norm_num), if_pos rfl] at hparse
  have htk := List.take_left (Encoder.padStart 9 '0' (Encoder.encodeRecursive t))
    (Encoder.padStart 13 '0' (Encoder.encodeRecursive r))
  have hdr := List.drop_left (Encoder.padStart 9 '0' (Encoder.encodeRecursive t))
    (Encoder.padStart 13 '0' (Encoder.encodeRecursive r))
  rw [hlent] at htk hdr
  rw [htk, hdr] at hparse
  exact ⟨hcreate, hparse, decode_pad_encodeRecursive 9 t,
    by rw [decodeBigInt_eq_decode]; exact decode_pad_encodeRecursive 13 r⟩

/-! ## Normalize: inversion and evaluation -/

theorem letter_alnum {c : Char} (h : isLetterChar c = true) : isAlnumChar c = true := by
  simp [isAlnumChar, h]

theorem filter_alnum_letters {l : List Char} (h : ∀ c ∈ l, isLetterChar c = true) :
    l.filter isAlnumChar = l :=
  List.filter_eq_self.mpr (fun c hc => letter_alnum (h c hc))

theorem map_toLower_idem_list (l : List Char) :
    (l.map toLowerChar).map toLowerChar = l.map toLowerChar := by
  rw [List.map_map]
  apply List.map_congr_left
  intro c _
  exact toLowerChar_idem c

theorem normalizeTag_fixed {q : List Char} (hq : ∀ c ∈ q, isLetterChar c = true)
    (hne : q ≠ []) :
    Ashid.normalizeTag (some (q ++ ['_'])) = some (q.map toLowerChar ++ ['_']) := by
  have hfilter : (q ++ ['_']).filter isAlnumChar = q := by
    rw [List.filter_append, filter_alnum_letters hq]
    simp [isAlnumChar, isLetterChar]
  have hmapne : (q.map toLowerChar) ≠ [] := by
    simpa using hne
  have := normalizeTag_some (p := q ++ ['_']) (by rw [hfilter]; exact hmapne)
  rw [hfilter] at this
  exact this

theorem normalize_ok_inv {x y : List Char} (h : Ashid.normalize x = .ok y) :
    ∃ p ets erd t r, Ashid.parse x = .ok (p, ets, erd) ∧
      Encoder.decode ets = .ok t ∧ Encoder.decodeBigInt erd = .ok r ∧
      Ashid.create (if p.length = 0 then none else some (p.map toLowerChar))
        (t : Int) (r : Int) = .ok y := by
  unfold Ashid.normalize at h
  split at h
  · cases h
  · next p ets erd heq =>
    split at h
    · cases h
    · next t hts =>
      split at h
      · cases h
      · next r hrd =>
        exact ⟨p, ets, erd, t, r, heq, hts, hrd, h⟩

theorem normalize_eval {y p ets erd : List Char} {t r : Nat}
    (hpy : Ashid.parse y = .ok (p, ets, erd))
    (hts : Encoder.decode ets = .ok t) (hrd : Encoder.decodeBigInt erd = .ok r) :
    Ashid.normalize y =
      Ashid.create (if p.length = 0 then none else some (p.map toLowerChar))
        (t : Int) (r : Int) := by
  unfold Ashid.normalize
  rw [hpy]
  simp only [hts, hrd]

/-! ## Claim theorems -/

/-- C3: For integer timestamp and random arguments, `create` raises a
DomainError if and only if the timestamp is negative, the timestamp exceeds
MAX_TIMESTAMP = 32^9 - 1 = 35184372088831, or the random value is negative;
the message cites the violated bound; `create(undefined, 35184372088831, 0)`
succeeds while `create(undefined, 35184372088832, 0)` fails citing the
maximum. -/
theorem c3_create_error_iff :
    (∀ (tag : Option (List Char)) (t r : Int),
      (∃ e, Ashid.create tag t r = .error e) ↔ (t < 0 ∨ Ashid.MAX_TIMESTAMP < t ∨ r < 0))
    ∧ (∀ (tag : Option (List Char)) (t r : Int), t < 0 →
        Ashid.create tag t r = .error "Ashid timestamp must be non-negative")
    ∧ (∀ (tag : Option (List Char)) (t r : Int), 0 ≤ t → Ashid.MAX_TIMESTAMP < t →
        Ashid.create tag t r =
          .error "Ashid timestamp must not exceed 35184372088831 (Dec 12, 3084)")
    ∧ (∀ (tag : Option (List Char)) (t r : Int), 0 ≤ t → t ≤ Ashid.MAX_TIMESTAMP →
        r < 0 → Ashid.create tag t r = .error "Ashid random value must be non-negative")
    ∧ (∃ s, Ashid.create none 35184372088831 0 = .ok s)
    ∧ Ashid.create none 35184372088832 0 =
        .error "Ashid timestamp must not exceed 35184372088831 (Dec 12, 3084)" := by
  have herr1 : ∀ (tag : Option (List Char)) (t r : Int), t < 0 →
      Ashid.create tag t r = .error "Ashid timestamp must be non-negative" := by
    intro tag t r h
    unfold Ashid.create
    rw [if_pos h]
  have herr2 : ∀ (tag : Option (List Char)) (t r : Int), 0 ≤ t →
      Ashid.MAX_TIMESTAMP < t →
      Ashid.create tag t r =
        .error "Ashid timestamp must not exceed 35184372088831 (Dec 12, 3084)" := by
    intro tag t r h1 h2
    unfold Ashid.create
    rw [if_neg (by omega), if_pos h2]
  have herr3 : ∀ (tag : Option (List Char)) (t r : Int), 0 ≤ t →
      t ≤ Ashid.MAX_TIMESTAMP → r < 0 →
      Ashid.create tag t r = .error "Ashid random value must be non-negative" := by
    intro tag t r h1 h2 h3
    unfold Ashid.create
    rw [if_neg (by omega), if_neg (by omega), if_pos h3]
  refine ⟨?_, herr1, herr2, herr3, ?_, ?_⟩
  · intro tag t r
    constructor
    · rintro ⟨e, he⟩
      by_contra hcon
      push_neg at hcon
      obtain ⟨h1, h2, h3⟩ := hcon
      unfold Ashid.create at he
      rw [if_neg (by omega), if_neg (by omega), if_neg (by omega)] at he
      cases he
    · rintro (h | h | h)
      · exact ⟨_, herr1 tag t r h⟩
      · by_cases h1 : t < 0
        · exact ⟨_, herr1 tag t r h1⟩
        · exact ⟨_, herr2 tag t r (by omega) h⟩
      · by_cases h1 : t < 0
        · exact ⟨_, herr1 tag t r h1⟩
        · by_cases h2 : Ashid.MAX_TIMESTAMP < t
          · exact ⟨_, herr2 tag t r (by omega) h2⟩
          · exact ⟨_, herr3 tag t r (by omega) (by omega) h⟩
  · exact ⟨_, create_ok_none (by norm_num) (by norm_num [Ashid.MAX_TIMESTAMP])
      (by norm_num)⟩
  · unfold Ashid.create
    rw [if_neg (by norm_num), if_pos (by norm_num [Ashid.MAX_TIMESTAMP])]

/-- C3 witness: the bounds and messages at concrete inputs. -/
theorem c3_witness :
    Ashid.create none (-1) 0 = .error "Ashid timestamp must be non-negative" ∧
    Ashid.create none 0 (-5) = .error "Ashid random value must be non-negative" ∧
    (∃ e, Ashid.create none 35184372088832 7 = .error e) := by
  refine ⟨c3_create_error_iff.2.1 none (-1) 0 (by norm_num),
    c3_create_error_iff.2.2.2.1 none 0 (-5) (by norm_num)
      (by norm_num [Ashid.MAX_TIMESTAMP]) (by norm_num),
    (c3_create_error_iff.1 none 35184372088832 7).mpr
      (Or.inr (Or.inl (by norm_num [Ashid.MAX_TIMESTAMP])))⟩

/-- C4: `create(undefined, 0, 0)` is exactly 22 zero symbols (both fields
fully padded), while `create("user_", 0, 0)` is exactly `user_0` (timestamp
field omitted, random unpadded). -/
theorem c4_zero_boundary :
    Ashid.create none 0 0 = .ok (List.replicate 22 '0') ∧
    Ashid.create (some "user_".toList) 0 0 = .ok "user_0".toList := by
  have henc0 : Encoder.encodeRecursive 0 = ['0'] := by
    rw [encodeRecursive_small (by norm_num)]
    decide
  constructor
  · rw [create_ok_none (by norm_num) (by norm_num [Ashid.MAX_TIMESTAMP]) (by norm_num)]
    rw [show ((0 : Int)).toNat = 0 by rfl, henc0]
    simp only [Except.ok.injEq]
    decide
  · rw [create_ok_some (p := "user_".toList) (v := "user_".toList) (by decide)
      (by norm_num) (by norm_num [Ashid.MAX_TIMESTAMP]) (by norm_num)]
    rw [show ((0 : Int)).toNat = 0 by rfl, henc0]
    simp only [Except.ok.injEq]
    decide

/-- C8: the negative cases each fail: decoding the empty string, decoding a
string with an unrecognized character, parsing the empty string, and
parsing a tag with delimiter but empty base. -/
theorem c8_negative_cases :
    Encoder.decode [] = .error "Input string cannot be empty" ∧
    Encoder.decode "abc-def".toList =
      .error ("Invalid character in Base32 string: " ++ String.singleton '-') ∧
    Ashid.parse [] = .error "Invalid Ashid: cannot be empty" ∧
    Ashid.parse "user_".toList = .error "Invalid Ashid: must have a base ID" := by
  exact ⟨rfl, rfl, rfl, rfl⟩

/-- C6: decode is invariant under case folding; the lookalike equalities
O/0 → 0, I/L/1 → 1, U/V → 27 hold; every character mapping to a value other
than 0, 1, 27 is the canonical symbol of that value up to case (and the
0/1/27 input sets are exactly the documented ones); any character whose
case-folded form is unrecognized makes decode fail. -/
theorem c6_decode_lookalikes :
    (∀ (s : List Char) (v : Nat), Encoder.decode s = .ok v →
      Encoder.decode (s.map toLowerChar) = .ok v ∧
      Encoder.decode (s.map toUpperChar) = .ok v)
    ∧ (Encoder.decode ['O'] = .ok 0 ∧ Encoder.decode ['0'] = .ok 0 ∧
       Encoder.decode ['I'] = .ok 1 ∧ Encoder.decode ['L'] = .ok 1 ∧
       Encoder.decode ['1'] = .ok 1 ∧ Encoder.decode ['U'] = .ok 27 ∧
       Encoder.decode ['V'] = .ok 27)
    ∧ (∀ (k : Nat) (c : Char), k < 32 →
        (Encoder.decodeChar c = Int.ofNat k ↔ c ∈ lookalikeInputs k))
    ∧ (∀ (s : List Char) (c : Char), c ∈ s →
        Encoder.decodeChar (toLowerChar c) = -1 → ∃ e, Encoder.decode s = .error e) := by
  refine ⟨?_, ⟨rfl, rfl, rfl, rfl, rfl, rfl, rfl⟩, ?_, ?_⟩
  · intro s v h
    have hs0 : s.length ≠ 0 := by
      intro h0
      rw [Encoder.decode, if_pos h0] at h
      cases h
    rw [Encoder.decode, if_neg hs0] at h
    constructor
    · rw [Encoder.decode, if_neg (by simpa using hs0), map_toLower_idem_list]
      exact h
    · rw [Encoder.decode, if_neg (by simpa using hs0), List.map_map]
      have heq : s.map (toLowerChar ∘ toUpperChar) = s.map toLowerChar :=
        List.map_congr_left (fun c _ => toLowerChar_toUpperChar c)
      rw [heq]
      exact h
  · intro k c hk
    exact decodeChar_mem_iff c k hk
  · intro s c hc h
    exact decode_err_of_bad hc h

/-- C6 witness: the case-invariance, lookalike-table and failure parts at
concrete inputs. -/
theorem c6_witness :
    (Encoder.decode ("z8".toList.map toLowerChar) = .ok 1000 ∧
     Encoder.decode ("z8".toList.map toUpperChar) = .ok 1000) ∧
    (Encoder.decodeChar '2' = Int.ofNat 2 ↔ '2' ∈ lookalikeInputs 2) ∧
    (∃ e, Encoder.decode ['-'] = .error e) := by
  refine ⟨c6_decode_lookalikes.1 "z8".toList 1000 rfl, ?_, ?_⟩
  · exact c6_decode_lookalikes.2.2.1 2 '2' (by norm_num)
  · exact c6_decode_lookalikes.2.2.2 ['-'] '-' (by decide) (by decide)

/-- C7: parsing the dash-delimited form of an identifier yields exactly the
same result as the underscore form (shown on the concrete scenario and for
every letters-only tag), and a prefix returned by parse always ends in the
underscore, never the dash. -/
theorem c7_dash_underscore :
    (Ashid.parse "user-1kbg1jmtt0000000000000".toList =
       Ashid.parse "user_1kbg1jmtt0000000000000".toList ∧
     Ashid.parse "user_1kbg1jmtt0000000000000".toList =
       .ok ("user_".toList, "1kbg1jmtt".toList, "0000000000000".toList))
    ∧ (∀ (tag rest : List Char), tag ≠ [] → (∀ c ∈ tag, isLetterChar c = true) →
        Ashid.parse (tag ++ '-' :: rest) = Ashid.parse (tag ++ '_' :: rest))
    ∧ (∀ (s p ets erd : List Char), Ashid.parse s = .ok (p, ets, erd) →
        p = [] ∨ p.getLast? = some '_') := by
  refine ⟨⟨rfl, rfl⟩, ?_, ?_⟩
  · intro tag rest htne hletters
    have htlen : tag.length ≠ 0 := by simpa [List.length_eq_zero] using htne
    have h1 : Ashid.scanTag (tag ++ '-' :: rest) 0 = (tag.length + 1, true) := by
      rw [scanTag_letters hletters, scanTag_cons_nonletter (by decide)]
      rw [if_pos ⟨Or.inr rfl, by omega⟩]
      congr 1
      omega
    have h2 : Ashid.scanTag (tag ++ '_' :: rest) 0 = (tag.length + 1, true) := by
      rw [scanTag_letters hletters, scanTag_cons_nonletter (by decide)]
      rw [if_pos ⟨Or.inl rfl, by omega⟩]
      congr 1
      omega
    have hsplit1 : tag ++ '-' :: rest = (tag ++ ['-']) ++ rest := by simp
    have hsplit2 : tag ++ '_' :: rest = (tag ++ ['_']) ++ rest := by simp
    have hklen1 : tag.length + 1 = (tag ++ ['-']).length := by simp
    have hklen2 : tag.length + 1 = (tag ++ ['_']).length := by simp
    have htake1 : (tag ++ '-' :: rest).take (tag.length + 1) = tag ++ ['-'] := by
      rw [hsplit1, hklen1, List.take_left]
    have htake2 : (tag ++ '_' :: rest).take (tag.length + 1) = tag ++ ['_'] := by
      rw [hsplit2, hklen2, List.take_left]
    have hdrop1 : (tag ++ '-' :: rest).drop (tag.length + 1) = rest := by
      rw [hsplit1, hklen1, List.drop_left]
    have hdrop2 : (tag ++ '_' :: rest).drop (tag.length + 1) = rest := by
      rw [hsplit2, hklen2, List.drop_left]
    simp only [Ashid.parse, h1, h2, htake1, htake2, hdrop1, hdrop2,
      dashToUnderscore_dash, dashToUnderscore_underscore,
      List.length_append, List.length_cons]
  · intro s p ets erd h
    obtain ⟨hp, _⟩ := parse_ok_inv h
    rcases hp with rfl | ⟨q, rfl, _, _⟩
    · exact Or.inl rfl
    · exact Or.inr (List.getLast?_concat q)

/-- C7 witness: the general equality and the prefix-shape fact at concrete
inputs. -/
theorem c7_witness :
    Ashid.parse ("ab".toList ++ '-' :: "cd".toList) =
      Ashid.parse ("ab".toList ++ '_' :: "cd".toList) ∧
    ("".toList = [] ∨ ("".toList : List Char).getLast? = some '_') := by
  refine ⟨c7_dash_underscore.2.1 "ab".toList "cd".toList (by decide) (by decide), ?_⟩
  exact c7_dash_underscore.2.2 (List.replicate 22 '0') [] (List.replicate 9 '0')
    (List.replicate 13 '0') (by rfl)

theorem alnum_toLower {c : Char} (h : isAlnumChar c = true) :
    isAlnumChar (toLowerChar c) = true := by
  simp only [isAlnumChar, isLetterChar, Bool.or_eq_true, Bool.and_eq_true,
    decide_eq_true_eq] at h ⊢
  rw [toLowerChar_toNat]
  split_ifs <;> omega

theorem digit_ne_delim {c : Char} (h : isDigitChar c = true) : c ≠ '_' ∧ c ≠ '-' := by
  constructor <;>
    · intro he
      subst he
      simp [isDigitChar] at h

theorem scanTag_stops_before_delim {cl : List Char} :
    (∀ c ∈ cl, isAlnumChar c = true) → (∃ c ∈ cl, isLetterChar c = false) →
      ∀ (rest : List Char) (acc : Nat), Ashid.scanTag (cl ++ rest) acc = (0, false) := by
  induction cl with
  | nil =>
    intro _ hnl
    simp at hnl
  | cons c cl ih =>
    intro halnum hnl rest acc
    by_cases hc : isLetterChar c = true
    · rw [List.cons_append, scanTag_cons_letter hc]
      apply ih (fun x hx => halnum x (by simp [hx]))
      rcases hnl with ⟨x, hx, hxf⟩
      rcases List.mem_cons.mp hx with rfl | hx2
      · rw [hc] at hxf
        cases hxf
      · exact ⟨x, hx2, hxf⟩
    · have hc2 : isLetterChar c = false := by simpa using hc
      have hdigit : isDigitChar c = true :=
        alnum_nonletter_digit (halnum c (by simp)) hc2
      obtain ⟨hne1, hne2⟩ := digit_ne_delim hdigit
      rw [List.cons_append, scanTag_cons_nonletter hc2]
      rw [if_neg]
      rintro ⟨h1 | h1, _⟩
      · exact hne1 h1
      · exact hne2 h1

theorem parse_scan_false {s : List Char} (hne : s.length ≠ 0)
    (hscan : Ashid.scanTag s 0 = (0, false)) :
    Ashid.parse s =
      if s.length = 26 then .ok ([], s.take 13, s.drop 13)
      else if s.length = 22 then .ok ([], s.take 9, s.drop 9)
      else .error ("Invalid Ashid: base ID must be 22 or 26 characters without delimiter (got "
        ++ toString s.length ++ ")") := by
  simp only [Ashid.parse, hscan, if_neg hne, List.drop_zero, Bool.false_eq_true, if_false]
  rfl

/-- C10: a raw tag whose cleaned form contains a digit creates successfully,
the output starts with the cleaned tag and the delimiter, but parse never
returns that tag: the leading-letter scan stops at the first digit, so
parse either fails or returns the empty prefix. -/
theorem c10_digit_tag_unrecoverable :
    ∀ (p : List Char) (t r : Nat), t ≤ 35184372088831 →
      ((p.filter isAlnumChar).map toLowerChar).any isDigitChar = true →
      ∃ s rest, Ashid.create (some p) (t : Int) (r : Int) = .ok s ∧
        s = ((p.filter isAlnumChar).map toLowerChar) ++ '_' :: rest ∧
        ((∃ e, Ashid.parse s = .error e) ∨
         ∃ a b, Ashid.parse s = .ok ([], a, b)) := by
  intro p t r ht hdig
  rw [List.any_eq_true] at hdig
  obtain ⟨d, hdmem, hddig⟩ := hdig
  have hclne : (p.filter isAlnumChar).map toLowerChar ≠ [] := by
    intro h0
    rw [h0] at hdmem
    simp at hdmem
  have hcl := normalizeTag_some (p := p) hclne
  have hcreate := create_ok_some (t := (t : Int)) (r := (r : Int)) hcl
    (by omega) (by simp only [Ashid.MAX_TIMESTAMP]; omega) (by omega)
  set cl := (p.filter isAlnumChar).map toLowerChar with hcldef
  set body := (if 0 < ((t : Int)).toNat then
      Encoder.encodeRecursive ((t : Int)).toNat ++
        Encoder.padStart 13 '0' (Encoder.encodeRecursive ((r : Int)).toNat)
    else Encoder.encodeRecursive ((r : Int)).toNat) with hbody
  have hs : (cl ++ ['_']) ++ body = cl ++ '_' :: body := by simp
  have halnum : ∀ c ∈ cl, isAlnumChar c = true := by
    intro c hc
    rw [hcldef] at hc
    obtain ⟨x, hx, rfl⟩ := List.mem_map.mp hc
    exact alnum_toLower (List.of_mem_filter hx)
  have hnl : ∃ c ∈ cl, isLetterChar c = false := ⟨d, hdmem, digit_not_letter hddig⟩
  have hscan : Ashid.scanTag (cl ++ '_' :: body) 0 = (0, false) :=
    scanTag_stops_before_delim halnum hnl ('_' :: body) 0
  have hlen : (cl ++ '_' :: body).length ≠ 0 := by simp
  have hparse := parse_scan_false hlen hscan
  refine ⟨cl ++ '_' :: body, body, by rw [hcreate, hs], rfl, ?_⟩
  by_cases h26 : (cl ++ '_' :: body).length = 26
  · rw [if_pos h26] at hparse
    exact Or.inr ⟨_, _, hparse⟩
  · rw [if_neg h26] at hparse
    by_cases h22 : (cl ++ '_' :: body).length = 22
    · rw [if_pos h22] at hparse
      exact Or.inr ⟨_, _, hparse⟩
    · rw [if_neg h22] at hparse
      exact Or.inl ⟨_, hparse⟩

/-- C10 witness: the digit tag `user1` at timestamp 0, random 0. -/
theorem c10_witness :
    (0 : Nat) ≤ 35184372088831 ∧
    ((("user1".toList.filter isAlnumChar).map toLowerChar).any isDigitChar = true) ∧
    (∃ s rest, Ashid.create (some "user1".toList) ((0 : Nat) : Int) ((0 : Nat) : Int) = .ok s ∧
      s = (("user1".toList.filter isAlnumChar).map toLowerChar) ++ '_' :: rest ∧
      ((∃ e, Ashid.parse s = .error e) ∨
       ∃ a b, Ashid.parse s = .ok ([], a, b))) := by
  exact ⟨by norm_num, by decide,
    c10_digit_tag_unrecoverable "user1".toList 0 0 (by norm_num) (by decide)⟩

/-- C1 (amended): lexicographic order equals chronological order in the
fixed (no-tag) layout for all valid timestamps and randoms; in the
delimited-tag layout it holds for the timestamp part when both timestamps
are positive and their unpadded encodings have equal length, and for the
random part when the shared timestamp is positive.  (As stated over all
timestamps the claim fails in the variable layout: see the
counterexample.) -/
theorem c1_sort_order_amended :
    (∀ t1 t2 r : Nat, t1 < t2 → t2 ≤ 35184372088831 → r < 2 ^ 64 →
      ∃ s1 s2, Ashid.create none (t1 : Int) (r : Int) = .ok s1 ∧
        Ashid.create none (t2 : Int) (r : Int) = .ok s2 ∧ lexLt s1 s2 = true)
    ∧ (∀ t r1 r2 : Nat, t ≤ 35184372088831 → r1 < r2 → r2 < 2 ^ 64 →
      ∃ s1 s2, Ashid.create none (t : Int) (r1 : Int) = .ok s1 ∧
        Ashid.create none (t : Int) (r2 : Int) = .ok s2 ∧ lexLt s1 s2 = true)
    ∧ (∀ (p : List Char) (t1 t2 r : Nat),
        (p.filter isAlnumChar).map toLowerChar ≠ [] →
        0 < t1 → t1 < t2 → t2 ≤ 35184372088831 →
        (Encoder.encodeRecursive t1).length = (Encoder.encodeRecursive t2).length →
        r < 2 ^ 64 →
      ∃ s1 s2, Ashid.create (some p) (t1 : Int) (r : Int) = .ok s1 ∧
        Ashid.create (some p) (t2 : Int) (r : Int) = .ok s2 ∧ lexLt s1 s2 = true)
    ∧ (∀ (p : List Char) (t r1 r2 : Nat),
        (p.filter isAlnumChar).map toLowerChar ≠ [] →
        0 < t → t ≤ 35184372088831 → r1 < r2 → r2 < 2 ^ 64 →
      ∃ s1 s2, Ashid.create (some p) (t : Int) (r1 : Int) = .ok s1 ∧
        Ashid.create (some p) (t : Int) (r2 : Int) = .ok s2 ∧ lexLt s1 s2 = true) := by
  have hpow : (2 : Nat) ^ 64 < 32 ^ 13 := by norm_num
  have hmaxpow : (35184372088831 : Nat) < 32 ^ 9 := by norm_num
  refine ⟨?_, ?_, ?_, ?_⟩
  · intro t1 t2 r h12 h2max hr
    have hc1 := create_ok_none (t := (t1 : Int)) (r := (r : Int))
      (by omega) (by simp only [Ashid.MAX_TIMESTAMP]; omega) (by omega)
    have hc2 := create_ok_none (t := (t2 : Int)) (r := (r : Int))
      (by omega) (by simp only [Ashid.MAX_TIMESTAMP]; omega) (by omega)
    rw [show ((t1 : Int)).toNat = t1 by omega, show ((r : Int)).toNat = r by omega]
      at hc1
    rw [show ((t2 : Int)).toNat = t2 by omega] at hc2
    refine ⟨_, _, hc1, hc2, ?_⟩
    apply lexLt_append_of_lt
    · rw [pad_enc_length (by norm_num) (by omega), pad_enc_length (by norm_num) (by omega)]
    · exact lexLt_pad_lt (by norm_num) (by omega) (by omega) h12
  · intro t r1 r2 htmax h12 hr2
    have hc1 := create_ok_none (t := (t : Int)) (r := (r1 : Int))
      (by omega) (by simp only [Ashid.MAX_TIMESTAMP]; omega) (by omega)
    have hc2 := create_ok_none (t := (t : Int)) (r := (r2 : Int))
      (by omega) (by simp only [Ashid.MAX_TIMESTAMP]; omega) (by omega)
    rw [show ((t : Int)).toNat = t by omega, show ((r1 : Int)).toNat = r1 by omega]
      at hc1
    rw [show ((t : Int)).toNat = t by omega, show ((r2 : Int)).toNat = r2 by omega]
      at hc2
    refine ⟨_, _, hc1, hc2, ?_⟩
    rw [lexLt_append_same]
    exact lexLt_pad_lt (by norm_num) (by omega) (by omega) h12
  · intro p t1 t2 r hclne h1pos h12 h2max hlen hr
    have hcl := normalizeTag_some (p := p) hclne
    have hc1 := create_ok_some (t := (t1 : Int)) (r := (r : Int)) hcl
      (by omega) (by simp only [Ashid.MAX_TIMESTAMP]; omega) (by omega)
    have hc2 := create_ok_some (t := (t2 : Int)) (r := (r : Int)) hcl
      (by omega) (by simp only [Ashid.MAX_TIMESTAMP]; omega) (by omega)
    rw [show ((t1 : Int)).toNat = t1 by omega, show ((r : Int)).toNat = r by omega,
      if_pos (by omega : 0 < t1)] at hc1
    rw [show ((t2 : Int)).toNat = t2 by omega, show ((r : Int)).toNat = r by omega,
      if_pos (by omega : 0 < t2)] at hc2
    refine ⟨_, _, hc1, hc2, ?_⟩
    rw [lexLt_append_same]
    apply lexLt_append_of_lt _ _ hlen
    exact lexLt_enc_eqlen h12 hlen
  · intro p t r1 r2 hclne htpos htmax h12 hr2
    have hcl := normalizeTag_some (p := p) hclne
    have hc1 := create_ok_some (t := (t : Int)) (r := (r1 : Int)) hcl
      (by omega) (by simp only [Ashid.MAX_TIMESTAMP]; omega) (by omega)
    have hc2 := create_ok_some (t := (t : Int)) (r := (r2 : Int)) hcl
      (by omega) (by simp only [Ashid.MAX_TIMESTAMP]; omega) (by omega)
    rw [show ((t : Int)).toNat = t by omega, show ((r1 : Int)).toNat = r1 by omega,
      if_pos (by omega : 0 < t)] at hc1
    rw [show ((t : Int)).toNat = t by omega, show ((r2 : Int)).toNat = r2 by omega,
      if_pos (by omega : 0 < t)] at hc2
    refine ⟨_, _, hc1, hc2, ?_⟩
    rw [← List.append_assoc, ← List.append_assoc, lexLt_append_same]
    exact lexLt_pad_lt (by norm_num) (by omega) (by omega) h12

/-- C1 counterexample: with the delimited tag `user`, timestamps 0 < 1 and
the fixed random 31, the created identifiers compare in the wrong order:
`user_z` is lexicographically greater than `user_1000000000000z`. -/
theorem c1_counterexample :
    Ashid.create (some "user".toList) 0 31 = .ok "user_z".toList ∧
    Ashid.create (some "user".toList) 1 31 = .ok "user_1000000000000z".toList ∧
    lexLt "user_z".toList "user_1000000000000z".toList = false ∧
    lexLt "user_1000000000000z".toList "user_z".toList = true := by
  have hencz : Encoder.encodeRecursive 31 = ['z'] := by
    rw [encodeRecursive_small (by norm_num)]
    decide
  have henc1 : Encoder.encodeRecursive 1 = ['1'] := by
    rw [encodeRecursive_small (by norm_num)]
    decide
  refine ⟨?_, ?_, by decide, by decide⟩
  · rw [create_ok_some (p := "user".toList) (v := "user_".toList) (by decide)
      (by norm_num) (by norm_num [Ashid.MAX_TIMESTAMP]) (by norm_num)]
    rw [show ((0 : Int)).toNat = 0 by rfl, show ((31 : Int)).toNat = 31 by rfl]
    rw [if_neg (by norm_num), hencz]
    simp only [Except.ok.injEq]
    decide
  · rw [create_ok_some (p := "user".toList) (v := "user_".toList) (by decide)
      (by norm_num) (by norm_num [Ashid.MAX_TIMESTAMP]) (by norm_num)]
    rw [show ((1 : Int)).toNat = 1 by rfl, show ((31 : Int)).toNat = 31 by rfl]
    rw [if_pos (by norm_num), hencz, henc1]
    simp only [Except.ok.injEq]
    decide

/-- C1 witness: each part of the amended sort-order theorem at concrete
inputs. -/
theorem c1_witness :
    (∃ s1 s2, Ashid.create none ((1 : Nat) : Int) ((3 : Nat) : Int) = .ok s1 ∧
      Ashid.create none ((2 : Nat) : Int) ((3 : Nat) : Int) = .ok s2 ∧
      lexLt s1 s2 = true) ∧
    (∃ s1 s2, Ashid.create none ((5 : Nat) : Int) ((1 : Nat) : Int) = .ok s1 ∧
      Ashid.create none ((5 : Nat) : Int) ((2 : Nat) : Int) = .ok s2 ∧
      lexLt s1 s2 = true) ∧
    (∃ s1 s2, Ashid.create (some "user".toList) ((1 : Nat) : Int) ((3 : Nat) : Int) = .ok s1 ∧
      Ashid.create (some "user".toList) ((2 : Nat) : Int) ((3 : Nat) : Int) = .ok s2 ∧
      lexLt s1 s2 = true) ∧
    (∃ s1 s2, Ashid.create (some "user".toList) ((5 : Nat) : Int) ((1 : Nat) : Int) = .ok s1 ∧
      Ashid.create (some "user".toList) ((5 : Nat) : Int) ((2 : Nat) : Int) = .ok s2 ∧
      lexLt s1 s2 = true) := by
  refine ⟨c1_sort_order_amended.1 1 2 3 (by norm_num) (by norm_num) (by norm_num),
    c1_sort_order_amended.2.1 5 1 2 (by norm_num) (by norm_num) (by norm_num),
    c1_sort_order_amended.2.2.1 "user".toList 1 2 3 (by decide) (by norm_num)
      (by norm_num) (by norm_num) ?_ (by norm_num),
    c1_sort_order_amended.2.2.2 "user".toList 5 1 2 (by decide) (by norm_num)
      (by norm_num) (by norm_num) (by norm_num)⟩
  rw [encodeRecursive_small (by norm_num), encodeRecursive_small (by norm_num)]
  rfl

/-- C2 (amended): the round-trip holds for every tag whose cleaned form is
non-empty and letters-only, and for the no-tag layout whenever the 22-symbol
base contains at least one non-letter; parsing the created string and
decoding the two returned fields gives back the original timestamp and
random value.  (For a no-tag base consisting entirely of letters the claim
fails: see the counterexample.) -/
theorem c2_roundtrip_amended :
    (∀ (p : List Char) (t r : Nat),
        (p.filter isAlnumChar).map toLowerChar ≠ [] →
        (∀ c ∈ (p.filter isAlnumChar).map toLowerChar, isLetterChar c = true) →
        t ≤ 35184372088831 → r < 2 ^ 64 →
      ∃ s ets erd, Ashid.create (some p) (t : Int) (r : Int) = .ok s ∧
        Ashid.parse s = .ok ((p.filter isAlnumChar).map toLowerChar ++ ['_'], ets, erd) ∧
        Encoder.decode ets = .ok t ∧ Encoder.decodeBigInt erd = .ok r)
    ∧ (∀ (t r : Nat) (s : List Char), t ≤ 35184372088831 → r < 2 ^ 64 →
        Ashid.create none (t : Int) (r : Int) = .ok s →
        (∃ c ∈ s, isLetterChar c = false) →
      ∃ ets erd, Ashid.parse s = .ok ([], ets, erd) ∧
        Encoder.decode ets = .ok t ∧ Encoder.decodeBigInt erd = .ok r) := by
  have hpow : (2 : Nat) ^ 64 < 32 ^ 13 := by norm_num
  constructor
  · intro p t r hclne hletters ht hr
    have hcl := normalizeTag_some (p := p) hclne
    exact roundtrip_tagged hcl hletters hclne ht (by omega)
  · intro t r s ht hr hcs hnl
    have hc := create_ok_none (t := (t : Int)) (r := (r : Int))
      (by omega) (by simp only [Ashid.MAX_TIMESTAMP]; omega) (by omega)
    rw [show ((t : Int)).toNat = t by omega, show ((r : Int)).toNat = r by omega] at hc
    rw [hcs] at hc
    simp only [Except.ok.injEq] at hc
    subst hc
    obtain ⟨_, hparse, hd1, hd2⟩ := roundtrip_untagged ht (by omega) hnl
    exact ⟨_, _, hparse, hd1, hd2⟩

/-- C2 counterexample: with no tag, timestamp 11349797448010 and random
11901125208844872010 (both in range), the created base is the 22-letter
string aaaaaaaaaaaaaaaaaaaaaa, which parse rejects, so the round-trip
fails. -/
theorem c2_counterexample :
    Ashid.create none 11349797448010 11901125208844872010 =
      .ok (List.replicate 22 'a') ∧
    Ashid.parse (List.replicate 22 'a') =
      .error "Invalid Ashid: must have a base ID" := by
  have e1 : Encoder.encodeRecursive 11349797448010 = List.replicate 9 'a' := by
    simp +decide only [encodeRecursive_step, encodeRecursive_small, Nat.reduceDiv,
      Nat.reduceMod, Nat.reduceLeDiff]
  have e2 : Encoder.encodeRecursive 11901125208844872010 = List.replicate 13 'a' := by
    simp +decide only [encodeRecursive_step, encodeRecursive_small, Nat.reduceDiv,
      Nat.reduceMod, Nat.reduceLeDiff]
  constructor
  · rw [create_ok_none (by norm_num) (by norm_num [Ashid.MAX_TIMESTAMP]) (by norm_num)]
    rw [show ((11349797448010 : Int)).toNat = 11349797448010 from rfl,
      show ((11901125208844872010 : Int)).toNat = 11901125208844872010 from rfl]
    rw [e1, e2]
    simp only [Except.ok.injEq]
    decide
  · rfl

/-- C2 witness: the round-trip at tag `user`, timestamp 1, random 2, and in
the no-tag layout at timestamp 1, random 2. -/
theorem c2_witness :
    (∃ s ets erd, Ashid.create (some "user".toList) ((1 : Nat) : Int) ((2 : Nat) : Int) = .ok s ∧
      Ashid.parse s = .ok (("user".toList.filter isAlnumChar).map toLowerChar ++ ['_'], ets, erd) ∧
      Encoder.decode ets = .ok 1 ∧ Encoder.decodeBigInt erd = .ok 2) ∧
    (∃ ets erd, Ashid.parse ("000000001".toList ++ "0000000000002".toList) =
        .ok ([], ets, erd) ∧
      Encoder.decode ets = .ok 1 ∧ Encoder.decodeBigInt erd = .ok 2) := by
  have hc : Ashid.create none ((1 : Nat) : Int) ((2 : Nat) : Int) =
      .ok ("000000001".toList ++ "0000000000002".toList) := by
    rw [create_ok_none (by norm_num) (by norm_num [Ashid.MAX_TIMESTAMP]) (by norm_num)]
    rw [show (((1 : Nat) : Int)).toNat = 1 by omega, show (((2 : Nat) : Int)).toNat = 2 by omega]
    rw [encodeRecursive_small (by norm_num : (1 : Nat) < 32),
      encodeRecursive_small (by norm_num : (2 : Nat) < 32)]
    simp only [Except.ok.injEq]
    decide
  exact ⟨c2_roundtrip_amended.1 "user".toList 1 2 (by decide) (by decide)
      (by norm_num) (by norm_num),
    c2_roundtrip_amended.2 1 2 ("000000001".toList ++ "0000000000002".toList)
      (by norm_num) (by norm_num) hc (by decide)⟩

theorem enc_pow32 : ∀ k, Encoder.encodeRecursive (32 ^ k) = '1' :: List.replicate k '0' := by
  intro k
  induction k with
  | zero =>
    rw [pow_zero, encodeRecursive_small (by norm_num)]
    decide
  | succ k ih =>
    have h32 : 32 ≤ 32 ^ (k + 1) := by
      calc (32 : Nat) = 32 ^ 1 := by ring
        _ ≤ 32 ^ (k + 1) := Nat.pow_le_pow_right (by norm_num) (by omega)
    rw [encodeRecursive_step h32]
    have h1 : 32 ^ (k + 1) / 32 = 32 ^ k := by
      rw [pow_succ]
      exact Nat.mul_div_cancel _ (by norm_num)
    have h2 : 32 ^ (k + 1) % 32 = 0 := by
      rw [pow_succ]
      simp [Nat.mul_mod_left]
    rw [h1, h2, ih]
    rw [show List.replicate (k + 1) '0' = List.replicate k '0' ++ ['0'] from
      List.replicate_succ' k '0']
    rfl

/-- C9 (amended): create enforces no upper bound on the random value — it
succeeds for every r ≥ 32^13 — and the resulting string is broken: in the
no-tag layout for 32^13 ≤ r < 32^16 the base has 23–25 symbols, so parse
fails and isValid is false (for 32^16 ≤ r < 32^17 the 26-symbol base is
instead accepted as a four-random identifier: see the counterexample); with
a delimited letters-only tag and timestamp 0, parse mis-splits the
oversized random field into a spurious non-zero timestamp field. -/
theorem c9_no_random_bound_amended :
    (∀ (tag : Option (List Char)) (t r : Int), 0 ≤ t → t ≤ Ashid.MAX_TIMESTAMP →
        (32 : Int) ^ 13 ≤ r → ∃ s, Ashid.create tag t r = .ok s)
    ∧ (∀ (t r : Nat), t ≤ 35184372088831 → 32 ^ 13 ≤ r → r < 32 ^ 16 →
        ∃ s, Ashid.create none (t : Int) (r : Int) = .ok s ∧
          (∃ e, Ashid.parse s = .error e) ∧ Ashid.isValid s = false)
    ∧ (∀ (p : List Char) (r : Nat),
        (p.filter isAlnumChar).map toLowerChar ≠ [] →
        (∀ c ∈ (p.filter isAlnumChar).map toLowerChar, isLetterChar c = true) →
        32 ^ 13 ≤ r →
        ∃ s ets erd v, Ashid.create (some p) 0 (r : Int) = .ok s ∧
          Ashid.parse s = .ok ((p.filter isAlnumChar).map toLowerChar ++ ['_'], ets, erd) ∧
          Encoder.decode ets = .ok v ∧ v ≠ 0) := by
  refine ⟨?_, ?_, ?_⟩
  · intro tag t r h0 h1 h2
    unfold Ashid.create
    have h32 : (0 : Int) < 32 ^ 13 := by norm_num
    rw [if_neg (by omega), if_neg (by omega), if_neg (by omega)]
    exact ⟨_, rfl⟩
  · intro t r ht hr1 hr2
    have hc := create_ok_none (t := (t : Int)) (r := (r : Int))
      (by omega) (by simp only [Ashid.MAX_TIMESTAMP]; omega) (by omega)
    rw [show ((t : Int)).toNat = t by omega, show ((r : Int)).toNat = r by omega] at hc
    have hlge : 14 ≤ (Encoder.encodeRecursive r).length := by
      have := encodeRecursive_length_ge 13 r hr1
      omega
    have hlle : (Encoder.encodeRecursive r).length ≤ 16 :=
      encodeRecursive_length_le 16 (by norm_num) r hr2
    have hpadr : Encoder.padStart 13 '0' (Encoder.encodeRecursive r) =
        Encoder.encodeRecursive r :=
      padStart_eq_of_le '0' (by omega)
    rw [hpadr] at hc
    have hlt : (Encoder.padStart 9 '0' (Encoder.encodeRecursive t)).length = 9 :=
      pad_enc_length (by norm_num) (by norm_num at ht ⊢; omega)
    have hslen : (Encoder.padStart 9 '0' (Encoder.encodeRecursive t) ++
        Encoder.encodeRecursive r).length = 9 + (Encoder.encodeRecursive r).length := by
      simp [hlt]
    have hmem : ∀ c ∈ Encoder.padStart 9 '0' (Encoder.encodeRecursive t) ++
        Encoder.encodeRecursive r, c ∈ Encoder.alphabet := by
      intro c hcm
      rcases List.mem_append.mp hcm with h | h
      · exact pad_enc_mem 9 t c h
      · exact encodeRecursive_mem r c h
    obtain ⟨e, he⟩ := parse_error_of_bad_length
      (by intro h; have := congrArg List.length h; rw [hslen] at this; simp at this)
      (fun c hcm => alphabet_no_delim c (hmem c hcm))
      (by omega) (by omega)
    exact ⟨_, hc, ⟨e, he⟩,
      isValid_false_of_parse_error
        (by intro h; have := congrArg List.length h; rw [hslen] at this; simp at this) he⟩
  · intro p r hclne hletters hr
    have hrpos : r ≠ 0 := by
      have : (0 : Nat) < 32 ^ 13 := by norm_num
      omega
    have hcl := normalizeTag_some (p := p) hclne
    have hc := create_ok_some (t := (0 : Int)) (r := (r : Int)) hcl
      (by omega) (by simp only [Ashid.MAX_TIMESTAMP]; omega) (by omega)
    rw [show ((0 : Int)).toNat = 0 from rfl, show ((r : Int)).toNat = r by omega,
      if_neg (by omega)] at hc
    have hlge : 14 ≤ (Encoder.encodeRecursive r).length := by
      have := encodeRecursive_length_ge 13 r hr
      omega
    have hparse := parse_tagged hclne hletters (encodeRecursive_ne_nil r)
    rw [if_neg (by omega)] at hparse
    obtain ⟨c, tail, hct, hv⟩ := encodeRecursive_head_pos r hrpos
    have hm : (Encoder.encodeRecursive r).length - 13 ≠ 0 := by omega
    have hets : (Encoder.encodeRecursive r).take
        ((Encoder.encodeRecursive r).length - 13) =
        c :: tail.take ((Encoder.encodeRecursive r).length - 13 - 1) := by
      rcases Nat.exists_eq_succ_of_ne_zero hm with ⟨m, hm2⟩
      rw [hm2, hct]
      simp
    have hmemets : ∀ x ∈ (Encoder.encodeRecursive r).take
        ((Encoder.encodeRecursive r).length - 13), x ∈ Encoder.alphabet :=
      fun x hx => encodeRecursive_mem r x (List.take_subset _ _ hx)
    have hdec : Encoder.decode ((Encoder.encodeRecursive r).take
        ((Encoder.encodeRecursive r).length - 13)) =
        .ok (valOf ((Encoder.encodeRecursive r).take
          ((Encoder.encodeRecursive r).length - 13))) :=
      decode_good (by rw [hets]; simp)
        (fun x hx => ⟨alphabet_lower x (hmemets x hx),
          alphabet_good x (hmemets x hx)⟩)
    refine ⟨_, _,
      (Encoder.encodeRecursive r).drop ((Encoder.encodeRecursive r).length - 13),
      _, hc, ?_, hdec, ?_⟩
    · rw [show ((p.filter isAlnumChar).map toLowerChar ++ ['_']) ++
        Encoder.encodeRecursive r =
        (p.filter isAlnumChar).map toLowerChar ++ '_' :: Encoder.encodeRecursive r
        by simp]
      exact hparse
    · rw [hets, valOf_cons]
      have h1 : 0 < 32 ^ (tail.take ((Encoder.encodeRecursive r).length - 13 - 1)).length :=
        pow_pos (by norm_num) _
      have h2 : 1 ≤ (Encoder.decodeChar c).toNat := hv
      have h3 : 1 * 1 ≤ (Encoder.decodeChar c).toNat *
          32 ^ (tail.take ((Encoder.encodeRecursive r).length - 13 - 1)).length :=
        Nat.mul_le_mul h2 h1
      omega

/-- C9 counterexample: at r = 32^16 the no-tag base is 26 symbols long, so
parse accepts it as a four-random identifier and isValid returns true,
contradicting the claim for that r. -/
theorem c9_counterexample :
    Ashid.create none 0 ((32 : Int) ^ 16) =
      .ok (List.replicate 9 '0' ++ '1' :: List.replicate 16 '0') ∧
    Ashid.isValid (List.replicate 9 '0' ++ '1' :: List.replicate 16 '0') = true := by
  constructor
  · rw [create_ok_none (by norm_num) (by norm_num [Ashid.MAX_TIMESTAMP]) (by norm_num)]
    rw [show ((0 : Int)).toNat = 0 from rfl,
      show (((32 : Int) ^ 16)).toNat = 32 ^ 16 from rfl]
    rw [encodeRecursive_small (by norm_num : (0 : Nat) < 32), enc_pow32 16]
    simp only [Except.ok.injEq]
    decide
  · decide

/-- C9 witness: the amended theorem at concrete inputs (t = 0, r = 32^13 in
the no-tag layout; tag `user`, r = 32^13 in the delimited layout). -/
theorem c9_witness :
    (∃ s, Ashid.create none 5 ((32 : Int) ^ 13) = .ok s) ∧
    (∃ s, Ashid.create none ((0 : Nat) : Int) ((32 ^ 13 : Nat) : Int) = .ok s ∧
      (∃ e, Ashid.parse s = .error e) ∧ Ashid.isValid s = false) ∧
    (∃ s ets erd v, Ashid.create (some "user".toList) 0 ((32 ^ 13 : Nat) : Int) = .ok s ∧
      Ashid.parse s = .ok (("user".toList.filter isAlnumChar).map toLowerChar ++ ['_'],
        ets, erd) ∧
      Encoder.decode ets = .ok v ∧ v ≠ 0) := by
  exact ⟨c9_no_random_bound_amended.1 none 5 ((32 : Int) ^ 13) (by norm_num)
      (by norm_num [Ashid.MAX_TIMESTAMP]) (by norm_num),
    c9_no_random_bound_amended.2.1 0 (32 ^ 13) (by norm_num) (by norm_num) (by norm_num),
    c9_no_random_bound_amended.2.2 "user".toList (32 ^ 13) (by decide) (by decide)
      (by norm_num)⟩

/-- C5 (amended): normalize is idempotent on every valid identifier whose
normalized form contains at least one non-letter character — which covers
every delimited-tag identifier (the delimiter is a non-letter) and every
no-tag identifier whose rebuilt 22-symbol base is not entirely letters.
(An all-letter rebuilt base fails to re-parse: see the counterexample.) -/
theorem c5_normalize_idempotent_amended :
    ∀ x y : List Char, Ashid.normalize x = .ok y →
      (∃ c ∈ y, isLetterChar c = false) → Ashid.normalize y = .ok y := by
  intro x y h hnl
  obtain ⟨p, ets, erd, t, r, hpx, hts, hrd, hcr⟩ := normalize_ok_inv h
  obtain ⟨hp, herd⟩ := parse_ok_inv hpx
  have hr : r < 32 ^ 13 := by
    rw [decodeBigInt_eq_decode] at hrd
    have h1 := decode_ok_lt hrd
    have h2 : (32 : Nat) ^ erd.length ≤ 32 ^ 13 :=
      Nat.pow_le_pow_right (by norm_num) herd
    omega
  rcases hp with rfl | ⟨q, rfl, hqne, hqletters⟩
  · rw [if_pos (show ([] : List Char).length = 0 from rfl)] at hcr
    obtain ⟨_, hmax, _⟩ := create_ok_bounds hcr
    have ht : t ≤ 35184372088831 := by
      simp only [Ashid.MAX_TIMESTAMP] at hmax
      omega
    have hc2 := create_ok_none (t := (t : Int)) (r := (r : Int))
      (by omega) (by simp only [Ashid.MAX_TIMESTAMP]; omega) (by omega)
    rw [show ((t : Int)).toNat = t by omega, show ((r : Int)).toNat = r by omega] at hc2
    rw [hcr] at hc2
    simp only [Except.ok.injEq] at hc2
    subst hc2
    obtain ⟨_, hparse, hd1, hd2⟩ := roundtrip_untagged ht hr hnl
    rw [normalize_eval hparse hd1 hd2]
    rw [if_pos (show ([] : List Char).length = 0 from rfl)]
    exact hcr
  · rw [if_neg (by simp)] at hcr
    have hmap : (q ++ ['_']).map toLowerChar = q.map toLowerChar ++ ['_'] := by
      rw [List.map_append]
      rfl
    rw [hmap] at hcr
    obtain ⟨_, hmax, _⟩ := create_ok_bounds hcr
    have ht : t ≤ 35184372088831 := by
      simp only [Ashid.MAX_TIMESTAMP] at hmax
      omega
    have hqlne : q.map toLowerChar ≠ [] := by simpa using hqne
    have hqllet : ∀ c ∈ q.map toLowerChar, isLetterChar c = true := by
      intro c hc
      obtain ⟨x2, hx2, rfl⟩ := List.mem_map.mp hc
      exact isLetter_toLower (hqletters x2 hx2)
    have hcl := normalizeTag_fixed hqllet hqlne
    rw [map_toLower_idem_list] at hcl
    obtain ⟨s, ets2, erd2, hcs, hps, hd1, hd2⟩ := roundtrip_tagged hcl hqllet hqlne ht hr
    rw [hcr] at hcs
    simp only [Except.ok.injEq] at hcs
    subst hcs
    rw [normalize_eval hps hd1 hd2]
    rw [if_neg (by simp)]
    rw [show (q.map toLowerChar ++ ['_']).map toLowerChar =
        q.map toLowerChar ++ ['_'] by
      rw [List.map_append, map_toLower_idem_list]
      rfl]
    exact hcr

/-- C5 counterexample: the 26-symbol identifier 0000a…a (4 zeros, 22 a's) is
valid, but normalize rebuilds it as the 22-letter fixed-layout string
aaaaaaaaaaaaaaaaaaaaaa, and normalizing that string fails, so
normalize(normalize(x)) ≠ normalize(x). -/
theorem c5_counterexample :
    Ashid.isValid "0000aaaaaaaaaaaaaaaaaaaaaa".toList = true ∧
    Ashid.normalize "0000aaaaaaaaaaaaaaaaaaaaaa".toList = .ok (List.replicate 22 'a') ∧
    Ashid.normalize (List.replicate 22 'a') =
      .error "Invalid Ashid: must have a base ID" := by
  refine ⟨by decide, ?_, ?_⟩
  · have hpx : Ashid.parse "0000aaaaaaaaaaaaaaaaaaaaaa".toList =
        .ok ([], "0000aaaaaaaaa".toList, "aaaaaaaaaaaaa".toList) := rfl
    have hts : Encoder.decode "0000aaaaaaaaa".toList = .ok 11349797448010 := rfl
    have hrd : Encoder.decodeBigInt "aaaaaaaaaaaaa".toList =
        .ok 11901125208844872010 := rfl
    rw [normalize_eval hpx hts hrd,
      if_pos (show ([] : List Char).length = 0 from rfl)]
    rw [create_ok_none (by omega) (by simp only [Ashid.MAX_TIMESTAMP]; omega) (by omega)]
    rw [show (((11349797448010 : Nat) : Int)).toNat = 11349797448010 by omega,
      show (((11901125208844872010 : Nat) : Int)).toNat = 11901125208844872010 by omega]
    have e1 : Encoder.encodeRecursive 11349797448010 = List.replicate 9 'a' := by
      simp +decide only [encodeRecursive_step, encodeRecursive_small, Nat.reduceDiv,
        Nat.reduceMod, Nat.reduceLeDiff]
    have e2 : Encoder.encodeRecursive 11901125208844872010 = List.replicate 13 'a' := by
      simp +decide only [encodeRecursive_step, encodeRecursive_small, Nat.reduceDiv,
        Nat.reduceMod, Nat.reduceLeDiff]
    rw [e1, e2]
    simp only [Except.ok.injEq]
    decide
  · have hpy : Ashid.parse (List.replicate 22 'a') =
        .error "Invalid Ashid: must have a base ID" := rfl
    unfold Ashid.normalize
    rw [hpy]

/-- C5 witness: normalize is idempotent at the valid identifier `user_z`. -/
theorem c5_witness : Ashid.normalize "user_z".toList = .ok "user_z".toList := by
  have h1 : Ashid.normalize "user_z".toList = .ok "user_z".toList := by
    have hpx : Ashid.parse "user_z".toList = .ok ("user_".toList, ['0'], ['z']) := rfl
    have hts : Encoder.decode ['0'] = .ok 0 := rfl
    have hrd : Encoder.decodeBigInt ['z'] = .ok 31 := rfl
    rw [normalize_eval hpx hts hrd]
    rw [if_neg (by decide)]
    rw [show "user_".toList.map toLowerChar = "user_".toList from rfl]
    rw [create_ok_some (p := "user_".toList) (v := "user_".toList) (by decide)
      (by omega) (by simp only [Ashid.MAX_TIMESTAMP]; omega) (by omega)]
    rw [show (((0 : Nat) : Int)).toNat = 0 by omega,
      show (((31 : Nat) : Int)).toNat = 31 by omega]
    rw [if_neg (by norm_num)]
    rw [encodeRecursive_small (by norm_num : (31 : Nat) < 32)]
    simp only [Except.ok.injEq]
    decide
  exact c5_normalize_idempotent_amended "user_z".toList "user_z".toList h1 (by decide)
